import Mathlib

/-!
# Verification of the NRK Former SP-MCTS engine

Shallow embedding of `src/board.py`, `src/mcts.py` and `src/main.py`.

Conventions used throughout:
* A Python board (`list` of `list` of one-character strings) is a
  `List (List Char)`; the empty marker is the space character.
* Python in-place mutation is made explicit by state passing: a function
  that mutates a board and also returns it is embedded as a function
  returning the new board value; where the distinction between the
  returned object and the (mutated) argument matters, the embedding
  returns both (see `stepPy`).
* Python's global `random` generator is embedded as an injected stream
  `rng : Nat → Nat` together with a cursor; `random.choice xs` at cursor
  `pos` picks `xs.getD (rng pos % xs.length) dflt`.
* The recursive flood fill `dfs` is embedded with an explicit fuel that is
  always instantiated large enough (one more than the number of cells of
  the target colour) for the recursion of the source to complete.
-/

namespace Former

/-! ## Board data model (src/board.py) -/

abbrev Cell := Char

/-- `EMPTY = " "` from src/board.py. -/
def EMPTY : Cell := ' '

abbrev Board := List (List Cell)

abbrev Coord := Int × Int

/-- `len(board)`. -/
def height (b : Board) : Nat := b.length

/-- `len(board[0])` (0 for the empty board, where Python would raise). -/
def width (b : Board) : Nat := (b.headD []).length

/-- `board[y][x]` for nonnegative indices, `EMPTY` out of range
(Python raises on an out-of-range read; all reads in the source are
behind bounds checks or on validated boards). -/
def cellN (b : Board) (x y : Nat) : Cell := (b.getD y []).getD x EMPTY

/-- `board[y][x]` with Python `int` indices; negative indices (which the
source never reads thanks to `is_within_bounds`) give `EMPTY`. -/
def getCell (b : Board) (x y : Int) : Cell :=
  if 0 ≤ x ∧ 0 ≤ y then cellN b x.toNat y.toNat else EMPTY

/-- `board[y][x] = c` (no-op out of range). -/
def setCellN (b : Board) (x y : Nat) (c : Cell) : Board :=
  b.set y ((b.getD y []).set x c)

/-- `board[y][x] = c` with `int` indices. -/
def setCell (b : Board) (x y : Int) (c : Cell) : Board :=
  if 0 ≤ x ∧ 0 ≤ y then setCellN b x.toNat y.toNat c else b

/-- Two boards with the same number of rows and the same row lengths
(cell writes never change a board's shape). -/
def sameShape (b b2 : Board) : Prop :=
  b2.length = b.length ∧ ∀ i, (b2.getD i []).length = (b.getD i []).length

/-- `is_within_bounds(board, x, y)` from src/board.py:
`0 <= y < len(board) and 0 <= x < len(board[0])`. -/
def is_within_bounds (b : Board) (x y : Int) : Bool :=
  decide (0 ≤ y) && decide (y < (height b : Int)) &&
    decide (0 ≤ x) && decide (x < (width b : Int))

/-- `is_empty(board, x, y)` from src/board.py. -/
def is_empty (b : Board) (x y : Int) : Bool := getCell b x y == EMPTY

/-- `is_terminal(board)` from src/board.py: every block of `board[-1]`
(the bottom row) equals `EMPTY`. -/
def is_terminal (b : Board) : Bool :=
  ((b.getLast?).getD []).all (fun a => a == EMPTY)

/-- `get_non_empty_blocks(board)` from src/board.py: row-major list of
coordinates `(x, y)` of non-empty blocks. -/
def get_non_empty_blocks (b : Board) : List Coord :=
  (List.range (height b)).flatMap (fun y =>
    (List.range (width b)).filterMap (fun x =>
      if cellN b x y = EMPTY then none else some ((x : Int), (y : Int))))

/-- Number of cells with colour `c` in column `j` (a counting device for
termination measures; reads the cells the way `move_blocks_down` does). -/
def colList (b : Board) (j : Nat) : List Cell :=
  b.map (fun row => row.getD j EMPTY)

/-- Count of cells of colour `c` on the grid, column by column. -/
def countColor (b : Board) (c : Cell) : Nat :=
  ((List.range (width b)).map
    (fun j => ((colList b j).filter (fun a => a == c)).length)).sum

/-- Count of non-empty cells on the grid, column by column. -/
def countNE (b : Board) : Nat :=
  ((List.range (width b)).map
    (fun j => ((colList b j).filter (fun a => !(a == EMPTY))).length)).sum

/-- `width * height`, the number of cells of a (rectangular) board. -/
def totalCells (b : Board) : Nat := width b * height b

/-- `dfs(board, x, y, target_color)` from src/board.py, with explicit
state passing for the in-place `board[y][x] = EMPTY` writes and an
explicit fuel bounding the recursion depth.  Returns the list of
connected coordinates together with the mutated board. -/
def dfsF : Nat → Board → Int → Int → Cell → List Coord × Board
  | 0, b, _, _, _ => ([], b)
  | fuel + 1, b, x, y, c =>
    if is_within_bounds b x y = false ∨ getCell b x y ≠ c then ([], b)
    else
      let b0 := setCell b x y EMPTY
      let r1 := dfsF fuel b0 (x + 1) y c
      let r2 := dfsF fuel r1.2 (x - 1) y c
      let r3 := dfsF fuel r2.2 x (y + 1) c
      let r4 := dfsF fuel r3.2 x (y - 1) c
      ((x, y) :: (r1.1 ++ r2.1 ++ r3.1 ++ r4.1), r4.2)

/-- `dfs` at the fuel that suffices for the source's recursion (each
recursive level clears one cell of colour `c`, so `countColor b c + 1`
levels are enough whenever `c ≠ EMPTY`, which holds at every call site
of the source). -/
def dfs (b : Board) (x y : Int) (c : Cell) : List Coord × Board :=
  dfsF (countColor b c + 1) b x y c

/-- `destroy_blocks(board, x, y)` from src/board.py: runs `dfs` (which
already clears the component in place) and then re-clears every returned
coordinate. -/
def destroy_blocks (b : Board) (x y : Int) : Board :=
  let c := getCell b x y
  let r := dfs b x y c
  r.1.foldl (fun bb p => setCell bb p.1 p.2 EMPTY) r.2

/-- `get_connected_blocks(board, x, y)` from src/board.py; the board is
mutated by the inner `dfs`, so the embedding returns both the component
and the mutated board. -/
def get_connected_blocks (b : Board) (x y : Int) : List Coord × Board :=
  dfs b x y (getCell b x y)

/-- The gravity column of src/board.py `move_blocks_down`:
`[EMPTY] * (len(board) - len(filtered)) + filtered`. -/
def newColumn (b : Board) (j : Nat) : List Cell :=
  let filtered := (colList b j).filter (fun a => !(a == EMPTY))
  List.replicate (b.length - filtered.length) EMPTY ++ filtered

/-- The inner write-back loop of `move_blocks_down`:
`for i, block in enumerate(new_column): board[i][j] = block`. -/
def writeColumn (b : Board) (j : Nat) (col : List Cell) : Board :=
  (List.range col.length).foldl
    (fun bb i => setCellN bb j i (col.getD i EMPTY)) b

/-- `move_blocks_down(board)` from src/board.py. -/
def move_blocks_down (b : Board) : Board :=
  (List.range (width b)).foldl (fun bb j => writeColumn bb j (newColumn bb j)) b

/-- The first `n` writes of `writeColumn` (a proof device: `writeColumn`
is `writeColN` at `n = col.length`). -/
def writeColN (b : Board) (j : Nat) (col : List Cell) (n : Nat) : Board :=
  (List.range n).foldl (fun bb i => setCellN bb j i (col.getD i EMPTY)) b

/-- The first `k` column passes of `move_blocks_down` (a proof device:
`move_blocks_down` is `gravN` at `k = width b`). -/
def gravN (b : Board) (k : Nat) : Board :=
  (List.range k).foldl (fun bb j => writeColumn bb j (newColumn bb j)) b

/-- The row-major scan order of `get_blobs`:
`for y in range(len(board)): for x in range(len(board[0]))`. -/
def scanCoords (b : Board) : List (Nat × Nat) :=
  (List.range (height b)).flatMap (fun y =>
    (List.range (width b)).map (fun x => (x, y)))

/-- The loop state of `get_blobs` from src/board.py: the working copy of
the board (mutated by the `dfs` inside `get_connected_blocks`), the
`visited` set, and the discovered components.  The source keeps only the
first coordinate of each component (`blobs.append(blob[0])`); the full
components are carried here and the heads extracted in `get_blobs`. -/
structure BlobSt where
  bd : Board
  visited : List Coord
  blobsF : List (List Coord)

/-- One iteration of the `get_blobs` scan:
`if (x, y) in visited or board_copy[y][x] == EMPTY: continue`, else run
`get_connected_blocks`, extend `visited` and record the blob. -/
def blobStep (st : BlobSt) (p : Nat × Nat) : BlobSt :=
  if ((p.1 : Int), (p.2 : Int)) ∈ st.visited ∨ cellN st.bd p.1 p.2 = EMPTY then st
  else
    let r := get_connected_blocks st.bd (p.1 : Int) (p.2 : Int)
    { bd := r.2, visited := st.visited ++ r.1, blobsF := st.blobsF ++ [r.1] }

/-- The loop invariant of the `get_blobs` scan (a proof device): the
working board is the original with the discovered cells cleared, every
discovered cell was a non-empty in-bounds cell of the original, no cell
is discovered twice, and `visited` is exactly the list of discovered
cells. -/
def BlobInv (b : Board) (st : BlobSt) : Prop :=
  sameShape b st.bd ∧
  (∀ u v : Int, getCell st.bd u v =
      if (u, v) ∈ st.blobsF.flatten then EMPTY else getCell b u v) ∧
  (∀ blob ∈ st.blobsF, blob ≠ [] ∧ ∀ p ∈ blob,
      is_within_bounds b p.1 p.2 = true ∧ getCell b p.1 p.2 ≠ EMPTY) ∧
  st.blobsF.flatten.Nodup ∧
  st.visited = st.blobsF.flatten

/-- The full `get_blobs` scan (`board_copy = copy_board(board)` is the
value-semantics starting state). -/
def get_blobs_state (b : Board) : BlobSt :=
  (scanCoords b).foldl blobStep { bd := b, visited := [], blobsF := [] }

/-- The connected components discovered by `get_blobs`. -/
def get_blobs_full (b : Board) : List (List Coord) :=
  (get_blobs_state b).blobsF

/-- `get_blobs(board)` from src/board.py: one canonical coordinate
(`blob[0]`, the first-discovered cell) per component. -/
def get_blobs (b : Board) : List Coord :=
  (get_blobs_full b).map (fun blob => blob.headD (0, 0))

/-- All rows have the width of the first row (`read_board_from_file`
guarantees this for engine inputs; Python raises on ragged boards in
several board operations, so the embedding's claims are stated on
rectangular boards). -/
def rect (b : Board) : Prop := ∀ r ∈ b, r.length = width b

instance : DecidablePred rect := fun b =>
  inferInstanceAs (Decidable (∀ r ∈ b, r.length = width b))

/-- Gravity invariant: below a non-empty cell every cell is non-empty
(columns are packed downward).  Boards produced by `move_blocks_down`
and boards read from files (which admit no empty marker) satisfy it. -/
def packed (b : Board) : Prop :=
  ∀ x, x < width b → ∀ y, y < height b →
    y + 1 < height b → cellN b x y ≠ EMPTY → cellN b x (y + 1) ≠ EMPTY

instance : DecidablePred packed := fun b =>
  inferInstanceAs (Decidable (∀ x, x < width b → ∀ y, y < height b →
    y + 1 < height b → cellN b x y ≠ EMPTY → cellN b x (y + 1) ≠ EMPTY))

/-- `step(board, x, y)` from src/board.py, with the Python aliasing made
explicit: the first component is the returned board, the second is the
value held by the caller's argument object after the call (`dfs`,
`destroy_blocks` and `move_blocks_down` all mutate `board` in place, and
`step` returns that same object, except in the empty-cell early return). -/
def stepPy (b : Board) (x y : Int) : Board × Board :=
  if is_empty b x y then (b, b)
  else
    let b2 := move_blocks_down (destroy_blocks b x y)
    (b2, b2)

/-- The value computed by `step(board, x, y)`. -/
def step (b : Board) (x y : Int) : Board := (stepPy b x y).1

/-- `playout(board)` from src/board.py, with the global `random.choice`
embedded as the injected stream `rng` read at cursor `pos`, and fuel for
the `while not is_terminal(board)` loop.  Returns the move count and the
final board. -/
def playoutF (rng : Nat → Nat) : Nat → Nat → Board → Nat → Nat × Board
  | 0, _, b, acc => (acc, b)
  | fuel + 1, pos, b, acc =>
    if is_terminal b then (acc, b)
    else
      let blocks := get_non_empty_blocks b
      let p := blocks.getD (rng pos % blocks.length) (0, 0)
      playoutF rng fuel (pos + 1) (step b p.1 p.2) (acc + 1)

/-- `playout(board)`: the loop of the source runs at most `countNE board`
iterations (each `step` on a non-empty cell clears at least one block),
so fuel `totalCells b + 1` always suffices. -/
def playout (rng : Nat → Nat) (pos : Nat) (b : Board) : Nat :=
  (playoutF rng (totalCells b + 1) pos b 0).1

/-! ## The MCTS engine (src/mcts.py) -/

/-- `Node.__init__` from src/mcts.py: a node owns a copy of its board,
its parent and producing move, the blob list computed once at creation,
an ordered list of children, and the running statistics.  The tree is
embedded as an arena (`MCTSState.nodes`), so `parent` and `children` are
arena indices; Python float statistics are embedded in `ℚ`. -/
structure NodeData where
  board : Board
  parent : Option Nat
  move : Option Coord
  blobs : List Coord
  children : List Nat
  n_visits : Nat
  average_score : ℚ
  square_sum_score : ℚ
  depth : Nat

instance : Inhabited NodeData :=
  ⟨{ board := [], parent := none, move := none, blobs := [], children := [],
     n_visits := 0, average_score := 0, square_sum_score := 0, depth := 0 }⟩

/-- `Node(board, depth, parent, move)` from src/mcts.py. -/
def mkNode (b : Board) (depth : Nat) (parent : Option Nat) (move : Option Coord) :
    NodeData :=
  { board := b, parent := parent, move := move, blobs := get_blobs b,
    children := [], n_visits := 0, average_score := 0, square_sum_score := 0,
    depth := depth }

/-- `Node.is_leaf` from src/mcts.py:
`len(self.children) < len(self.blobs)`. -/
def node_is_leaf (nd : NodeData) : Bool := nd.children.length < nd.blobs.length

/-- The state of an `MCTS` engine instance from src/mcts.py: the arena of
tree nodes (the root at index 0), plus the fields of `MCTS.__init__`. -/
structure MCTSState where
  board : Board
  nodes : List NodeData
  selection_threshold : Nat
  solution_found : Bool
  best_solution : Option Nat

/-- `MCTS.__init__(board, selection_threshold)` from src/mcts.py. -/
def initMCTS (b : Board) (th : Nat) : MCTSState :=
  { board := b, nodes := [mkNode b 0 none none], selection_threshold := th,
    solution_found := false, best_solution := none }

/-- Arena lookup (all indices used by the source are in range; the
default keeps the embedding total). -/
def getN (s : MCTSState) (i : Nat) : NodeData := s.nodes.getD i default

/-- Arena update of one node. -/
def setN (s : MCTSState) (i : Nat) (nd : NodeData) : MCTSState :=
  { s with nodes := s.nodes.set i nd }

/-- Arena well-formedness of an engine state (a proof device): the root
is the unique parentless node at index 0, parent indices strictly
decrease, and children lists point to in-range nodes whose parent field
points back at the list owner. -/
def WFState (s : MCTSState) : Prop :=
  0 < s.nodes.length ∧
  (∀ j, j < s.nodes.length → ((getN s j).parent = none ↔ j = 0)) ∧
  (∀ j p, j < s.nodes.length → (getN s j).parent = some p → p < j) ∧
  (∀ j, j < s.nodes.length → ∀ c ∈ (getN s j).children,
      c < s.nodes.length ∧ (getN s c).parent = some j)

/-- `MCTS.expand` from src/mcts.py: take the next untried blob, `step` a
copy of the board, create the child node and append it to the parent's
children.  Returns the new state and the child's arena index. -/
def expand (s : MCTSState) (i : Nat) : MCTSState × Nat :=
  let nd := getN s i
  let blob := nd.blobs.getD nd.children.length (0, 0)
  let childBoard := step nd.board blob.1 blob.2
  let j := s.nodes.length
  let child := mkNode childBoard (nd.depth + 1) (some i) (some blob)
  let s1 := { s with nodes := s.nodes ++ [child] }
  (setN s1 i { nd with children := nd.children ++ [j] }, j)

/-- The (parent, child) pairs on which `MCTS.uct` is evaluated when
`selection_strategy` runs at node `i`: exactly the children of a
non-leaf node whose visit count has reached the selection threshold
(`child_uct_values = [self.uct(node, child) for child in node.children]`). -/
def uctPairs (s : MCTSState) (i : Nat) : List (Nat × Nat) :=
  if node_is_leaf (getN s i) then []
  else if (getN s i).n_visits < s.selection_threshold then []
  else (getN s i).children.map (fun c => (i, c))

/-- `MCTS.selection_strategy` from src/mcts.py.  The `random.choice`
draw is the injected stream `rng` at cursor `pos`.  In the UCT branch the
source picks the child of maximal `uct` value; `uct` is real-valued
(`math.sqrt`, `math.log`), so the index of the maximal child is supplied
by the oracle `uc` (a function of the full state and the node, which the
true argmax is); every theorem below quantifies over all oracles and so
covers the argmax resolution.  Returns (state, chosen node, cursor). -/
def selection_strategy (rng : Nat → Nat) (uc : MCTSState → Nat → Nat)
    (pos : Nat) (s : MCTSState) (i : Nat) : MCTSState × Nat × Nat :=
  let nd := getN s i
  if node_is_leaf nd then
    let r := expand s i
    (r.1, r.2, pos)
  else if nd.n_visits < s.selection_threshold then
    (s, nd.children.getD (rng pos % nd.children.length) 0, pos + 1)
  else
    (s, nd.children.getD (uc s i % nd.children.length) 0, pos)

/-- The `while not node.is_leaf()` loop of `MCTS.select` from
src/mcts.py, with fuel (the descent of the source strictly increases the
arena index, so `nodes.length + 1` steps always suffice).  On a terminal
board it sets `solution_found`, revises `best_solution` when the depth
strictly improves, and stops. -/
def selectLoopF (rng : Nat → Nat) (uc : MCTSState → Nat → Nat) :
    Nat → Nat → MCTSState → Nat → MCTSState × Nat × Nat
  | 0, pos, s, i => (s, i, pos)
  | fuel + 1, pos, s, i =>
    let nd := getN s i
    if node_is_leaf nd then (s, i, pos)
    else if is_terminal nd.board then
      let newBest :=
        match s.best_solution with
        | none => some i
        | some bi => if nd.depth < (getN s bi).depth then some i else some bi
      ({ s with solution_found := true, best_solution := newBest }, i, pos)
    else
      selectLoopF rng uc fuel (selection_strategy rng uc pos s i).2.2
        (selection_strategy rng uc pos s i).1
        (selection_strategy rng uc pos s i).2.1

/-- `MCTS.select` from src/mcts.py: descend from the root. -/
def select (rng : Nat → Nat) (uc : MCTSState → Nat → Nat) (pos : Nat)
    (s : MCTSState) : MCTSState × Nat × Nat :=
  selectLoopF rng uc (s.nodes.length + 1) pos s 0

/-- `MCTS.score` from src/mcts.py: `score = 1 - (n_moves - 1) / 63` then
`score *= 10000`; Python float arithmetic embedded in `ℚ` (the values
involved are exact decimal-free rationals either way). -/
def score (n : Nat) : ℚ := (1 - ((n : ℚ) - 1) / 63) * 10000

/-- `MCTS.backpropagate` from src/mcts.py, walking the parent chain
(fuel: parent indices strictly decrease, so `nodes.length + 1` steps
suffice).  `n_visits += 1`, then the incremental mean update
`(average * (n_visits - 1) + score) / n_visits` with the updated count,
then `square_sum_score += score ** 2`. -/
def bpUpdate (nd : NodeData) (sc : ℚ) : NodeData :=
  { nd with
    n_visits := nd.n_visits + 1,
    average_score := (nd.average_score * (nd.n_visits : ℚ) + sc) /
      ((nd.n_visits : ℚ) + 1),
    square_sum_score := nd.square_sum_score + sc ^ 2 }

def backpropF (sc : ℚ) : Nat → MCTSState → Option Nat → MCTSState
  | 0, s, _ => s
  | _ + 1, s, none => s
  | fuel + 1, s, some i =>
    backpropF sc fuel (setN s i (bpUpdate (getN s i) sc)) (getN s i).parent

/-- `MCTS.backpropagate(node, score)`. -/
def backpropagate (s : MCTSState) (i : Nat) (sc : ℚ) : MCTSState :=
  backpropF sc (s.nodes.length + 1) s (some i)

/-- `MCTS.simulate` followed by `MCTS.backpropagate` from src/mcts.py:
random playout on a copy of the node's board, `n_moves + node.depth`,
`score`, then backpropagation from the node. -/
def simStep (s2 : MCTSState) (i2 : Nat) (rng : Nat → Nat) (pos1 : Nat) :
    MCTSState × Nat :=
  let nd := getN s2 i2
  let pr := playoutF rng (totalCells nd.board + 1) pos1 nd.board 0
  (backpropagate s2 i2 (score (pr.1 + nd.depth)), pos1 + pr.1)

/-- One iteration of the `MCTS.search` loop from src/mcts.py:
select, expand when the selected node is a leaf, simulate,
backpropagate.  Returns the new state and rng cursor. -/
def searchIter (rng : Nat → Nat) (uc : MCTSState → Nat → Nat)
    (s : MCTSState) (pos : Nat) : MCTSState × Nat :=
  let r := select rng uc pos s
  let e := if node_is_leaf (getN r.1 r.2.1) then expand r.1 r.2.1
    else (r.1, r.2.1)
  simStep e.1 e.2 rng r.2.2

/-- `n` completed search iterations (the body of the `while` loop of
`MCTS.search` run `n` times). -/
def runIters (rng : Nat → Nat) (uc : MCTSState → Nat → Nat) :
    Nat → MCTSState → Nat → MCTSState × Nat
  | 0, s, pos => (s, pos)
  | n + 1, s, pos =>
    let r := searchIter rng uc s pos
    runIters rng uc n r.1 r.2

/-- The `while time() - t0 < time_limit or not self.solution_found` loop
of `MCTS.search`.  `clock k` is the value of `time() - t0 < time_limit`
at the k-th poll; the Boolean result records whether the fuel ran out
(`false` = the loop exited through its own condition, as in the source).
Returns (state, cursor, iteration count, fuel exhausted). -/
def searchLoopF (clock : Nat → Bool) (rng : Nat → Nat)
    (uc : MCTSState → Nat → Nat) :
    Nat → MCTSState → Nat → Nat → MCTSState × Nat × Nat × Bool
  | 0, s, pos, k => (s, pos, k, true)
  | fuel + 1, s, pos, k =>
    if clock k || !s.solution_found then
      let r := searchIter rng uc s pos
      searchLoopF clock rng uc fuel r.1 r.2 (k + 1)
    else (s, pos, k, false)

/-- The solution-path extraction at the end of `MCTS.search`:
`while node.parent is not None: moves.append(node.move); node = node.parent`
then reverse (fuel as for `backpropF`). -/
def pathMovesF (s : MCTSState) : Nat → Nat → List Coord
  | 0, _ => []
  | fuel + 1, i =>
    let nd := getN s i
    match nd.parent with
    | none => []
    | some p => pathMovesF s fuel p ++ [nd.move.getD (0, 0)]

/-- The move extraction of `MCTS.search`: `none` models the
`AttributeError` the source raises when `best_solution` is still `None`
(`None.parent`); the source's loop condition makes that unreachable. -/
def extractMoves (s : MCTSState) : Option (List Coord) :=
  match s.best_solution with
  | none => none
  | some i => some (pathMovesF s (s.nodes.length + 1) i)

/-- `MCTS.search(time_limit)` from src/mcts.py: run the search loop, then
extract the move path of the best solution.  Returns the extracted moves
and the number of iterations run. -/
def search (b : Board) (th : Nat) (clock : Nat → Bool) (rng : Nat → Nat)
    (uc : MCTSState → Nat → Nat) (fuel : Nat) : Option (List Coord) × Nat :=
  let r := searchLoopF clock rng uc fuel (initMCTS b th) 0 0
  (extractMoves r.1, r.2.2.1)

/-- Modelled from the spec: the scoring formula claim C3 attributes to the
code, `score = K * (1 - (total_moves - 1) / max_moves)` with `K = 10000`
and `max_moves` the number of cells of the board being searched. -/
def spec_score (b : Board) (n : Nat) : ℚ :=
  10000 * (1 - ((n : ℚ) - 1) / (totalCells b : ℚ))

/-! ## The orchestrator's aggregation loop (src/main.py) -/

/-- One pass of the `best_solution` selection loop of src/main.py:
`if len(solution) == 0: continue` then
`if len(solution) < len(best_solution) or len(best_solution) == 0`. -/
def bestStep (best sol : List Coord) : List Coord :=
  if sol.length = 0 then best
  else if sol.length < best.length ∨ best.length = 0 then sol
  else best

/-- The `best_solution` selection loop of src/main.py, starting from
`best_solution = []`. -/
def best_solution_fold (solutions : List (List Coord)) : List Coord :=
  solutions.foldl bestStep []

/-! ## The constructor call of src/main.py (claim C5) -/

/-- Positional parameters accepted by `MCTS.__init__` in src/mcts.py
besides `self`: `board` (required) and `selection_threshold` (optional). -/
def mctsInitMinArgs : Nat := 1

/-- See `mctsInitMinArgs`. -/
def mctsInitMaxArgs : Nat := 2

/-- Number of positional arguments `run_mcts` in src/main.py passes to the
`MCTS` constructor: `board, seed, selection_threshold, C, D`. -/
def mainMCTSCallArgs : Nat := 5

/-- Python call semantics for `MCTS(board, seed, selection_threshold, C, D)`
in `run_mcts` of src/main.py: a call whose positional-argument count is
outside the accepted range raises `TypeError` before any search runs. -/
def run_mcts_main : Except String Unit :=
  if mctsInitMinArgs ≤ mainMCTSCallArgs ∧ mainMCTSCallArgs ≤ mctsInitMaxArgs then
    Except.ok ()
  else Except.error "TypeError"

/-! ## Lemmas for the orchestrator aggregation (claim C10) -/

theorem bestFold_spec (sols : List (List Coord)) :
    ∀ best : List Coord,
      ((sols.foldl bestStep best = [] ↔ best = [] ∧ ∀ s ∈ sols, s = []) ∧
        (sols.foldl bestStep best = best ∨ sols.foldl bestStep best ∈ sols)) ∧
      (∀ s ∈ sols, s ≠ [] →
          sols.foldl bestStep best ≠ [] ∧
            (sols.foldl bestStep best).length ≤ s.length) ∧
      (best ≠ [] →
          sols.foldl bestStep best ≠ [] ∧
            (sols.foldl bestStep best).length ≤ best.length) := by
  induction sols with
  | nil => simp
  | cons a t ih =>
    intro best
    have hfold : (a :: t).foldl bestStep best = t.foldl bestStep (bestStep best a) := rfl
    rcases Decidable.em (a.length = 0) with ha | ha
    · have ha' : a = [] := List.length_eq_zero.mp ha
      have hb1 : bestStep best a = best := by simp [bestStep, ha]
      rw [hfold, hb1]
      obtain ⟨⟨ih1, ih2⟩, ih3, ih4⟩ := ih best
      refine ⟨⟨?_, ?_⟩, ?_, ih4⟩
      · rw [ih1]; subst ha'; simp
      · rcases ih2 with h | h
        · exact Or.inl h
        · exact Or.inr (List.mem_cons_of_mem _ h)
      · intro s hs hne
        rcases List.mem_cons.mp hs with rfl | hs
        · exact absurd ha' hne
        · exact ih3 s hs hne
    · have hane : a ≠ [] := fun h => ha (by simp [h])
      rcases Decidable.em (a.length < best.length ∨ best.length = 0) with hc | hc
      · have hb1 : bestStep best a = a := by
          unfold bestStep; rw [if_neg ha, if_pos hc]
        rw [hfold, hb1]
        obtain ⟨⟨ih1, ih2⟩, ih3, ih4⟩ := ih a
        have hres := ih4 hane
        refine ⟨⟨?_, ?_⟩, ?_, ?_⟩
        · constructor
          · intro h; exact absurd h hres.1
          · rintro ⟨-, hall⟩; exact absurd (hall a (by simp)) hane
        · rcases ih2 with h | h
          · exact Or.inr (by simp [h])
          · exact Or.inr (List.mem_cons_of_mem _ h)
        · intro s hs hne
          rcases List.mem_cons.mp hs with rfl | hs
          · exact hres
          · exact ih3 s hs hne
        · intro hbne
          refine ⟨hres.1, le_trans hres.2 ?_⟩
          rcases hc with hlt | h0
          · exact le_of_lt hlt
          · exact absurd (List.length_eq_zero.mp h0) hbne
      · have hb1 : bestStep best a = best := by
          unfold bestStep; rw [if_neg ha, if_neg hc]
        push_neg at hc
        have hbne : best ≠ [] := fun h => hc.2 (by simp [h])
        rw [hfold, hb1]
        obtain ⟨⟨ih1, ih2⟩, ih3, ih4⟩ := ih best
        have hres := ih4 hbne
        refine ⟨⟨?_, ?_⟩, ?_, ih4⟩
        · constructor
          · intro h; exact absurd h hres.1
          · rintro ⟨hb, -⟩; exact absurd hb hbne
        · rcases ih2 with h | h
          · exact Or.inl h
          · exact Or.inr (List.mem_cons_of_mem _ h)
        · intro s hs hne
          rcases List.mem_cons.mp hs with rfl | hs
          · exact ⟨hres.1, le_trans hres.2 hc.1⟩
          · exact ih3 s hs hne

/-! ## Claim theorems (first batch) -/

/-- C10: the orchestrator's aggregation loop returns a sequence with the
fewest moves among all non-empty results, and returns the empty sequence
exactly when every engine's result is empty. -/
theorem best_solution_fold_correct (solutions : List (List Coord)) :
    (best_solution_fold solutions = [] ↔ ∀ s ∈ solutions, s = []) ∧
    (∀ s ∈ solutions, s ≠ [] →
        best_solution_fold solutions ≠ [] ∧
          (best_solution_fold solutions).length ≤ s.length) ∧
    (best_solution_fold solutions ≠ [] → best_solution_fold solutions ∈ solutions) := by
  obtain ⟨⟨h1, h2⟩, h3, -⟩ := bestFold_spec solutions []
  refine ⟨by simpa using h1, h3, ?_⟩
  intro hne
  rcases h2 with h | h
  · exact absurd h hne
  · exact h

/-- C2 counterexample: `step` is not a pure transformation — on the board
`[["B"]]` a click at `(0, 0)` leaves the caller's board object holding
`[[" "]]`, not the original value. -/
theorem step_mutates_input : (stepPy [['B']] 0 0).2 ≠ [['B']] := by decide

/-- C2 (amended): `step` mutates its argument in place — after the call
the caller's board object holds exactly the returned board (they are the
same object); the board value is left unchanged only in the empty-cell
case, where `step` is a no-op. -/
theorem step_aliasing (b : Board) (x y : Int) :
    (stepPy b x y).2 = (stepPy b x y).1 ∧
      (is_empty b x y = true → step b x y = b) := by
  constructor
  · unfold stepPy; split <;> rfl
  · intro h; unfold step stepPy; rw [if_pos h]

/-- C2 amended, witnessed at a concrete input: clicking the empty cell of
`[[" ", "B"]]` returns the board unchanged, and the aliasing equation
holds there. -/
theorem step_aliasing_witness :
    (stepPy [[' ', 'B']] 0 0).2 = (stepPy [[' ', 'B']] 0 0).1 ∧
      (is_empty [[' ', 'B']] 0 0 = true → step [[' ', 'B']] 0 0 = [[' ', 'B']]) :=
  step_aliasing [[' ', 'B']] 0 0

/-- C3 counterexample: `MCTS.score` divides by the hard-coded constant 63,
not by the number of cells of the board being searched — on a 2×2 board
the claimed formula gives 7500 at two total moves, the code gives
620000/63. -/
theorem score_not_cell_count :
    score 2 ≠ spec_score [['B', 'G'], ['G', 'B']] 2 := by
  norm_num [score, spec_score, totalCells, width, height]

/-- C3 (amended): the playout score is
`10000 * (1 - (total_moves - 1) / 63)` with the divisor 63 a hard-coded
constant independent of the searched board, and it is strictly
monotonically decreasing in the total move count. -/
theorem score_strict_anti (n m : Nat) (h : n < m) : score m < score n := by
  unfold score
  have hcast : (n : ℚ) < (m : ℚ) := by exact_mod_cast h
  have h63 : (0 : ℚ) < 63 := by norm_num
  have hdiv : ((n : ℚ) - 1) / 63 < ((m : ℚ) - 1) / 63 := by
    apply div_lt_div_of_pos_right ?_ h63
    linarith
  have : (1 : ℚ) - ((m : ℚ) - 1) / 63 < 1 - ((n : ℚ) - 1) / 63 := by linarith
  have h10000 : (0 : ℚ) < 10000 := by norm_num
  exact mul_lt_mul_of_pos_right this h10000

/-- C3 amended, witnessed: one total move scores strictly above two. -/
theorem score_strict_anti_witness : 1 < 2 ∧ score 2 < score 1 :=
  ⟨by decide, score_strict_anti 1 2 (by decide)⟩

/-- C5: `run_mcts` in src/main.py passes five positional arguments
`(board, seed, selection_threshold, C, D)` to a constructor accepting at
most two, so the per-engine seeding path raises `TypeError` — no injected
per-engine random source exists in the code. -/
theorem run_mcts_main_type_error : run_mcts_main = Except.error "TypeError" := by
  rfl

/-! ## Basic board lemmas -/

theorem width_eq_getD (b : Board) : width b = (b.getD 0 []).length := by
  cases b <;> rfl

theorem cellN_def (b : Board) (x y : Nat) :
    cellN b x y = ((b[y]?).getD []).getD x EMPTY := by
  simp [cellN, List.getD_eq_getElem?_getD]

theorem cellN_oob_row (b : Board) (x y : Nat) (h : b.length ≤ y) :
    cellN b x y = EMPTY := by
  rw [cellN_def]
  rw [List.getElem?_eq_none (by simpa using h)]
  rfl

theorem cellN_oob_col (b : Board) (x y : Nat)
    (h : (b.getD y []).length ≤ x) : cellN b x y = EMPTY := by
  rw [cellN]
  rw [List.getD_eq_getElem?_getD, List.getElem?_eq_none (by simpa using h)]
  rfl

theorem cellN_ne_empty_bounds (b : Board) (x y : Nat)
    (h : cellN b x y ≠ EMPTY) :
    y < b.length ∧ x < (b.getD y []).length := by
  constructor
  · by_contra hy
    exact h (cellN_oob_row b x y (le_of_not_lt hy))
  · by_contra hx
    exact h (cellN_oob_col b x y (le_of_not_lt hx))

theorem getCell_coe (b : Board) (x y : Nat) :
    getCell b (x : Int) (y : Int) = cellN b x y := by
  simp [getCell]

theorem sameShape_refl (b : Board) : sameShape b b := ⟨rfl, fun _ => rfl⟩

theorem sameShape_trans {b1 b2 b3 : Board} (h1 : sameShape b1 b2)
    (h2 : sameShape b2 b3) : sameShape b1 b3 :=
  ⟨h2.1.trans h1.1, fun i => (h2.2 i).trans (h1.2 i)⟩

theorem sameShape_height {b b2 : Board} (h : sameShape b b2) :
    height b2 = height b := h.1

theorem sameShape_width {b b2 : Board} (h : sameShape b b2) :
    width b2 = width b := by
  rw [width_eq_getD, width_eq_getD]; exact h.2 0

theorem sameShape_setCellN (b : Board) (x y : Nat) (c : Cell) :
    sameShape b (setCellN b x y c) := by
  constructor
  · simp [setCellN]
  · intro i
    unfold setCellN
    rcases Decidable.em (y < b.length) with hy | hy
    · rcases Decidable.em (y = i) with rfl | hne
      · rw [List.getD_eq_getElem?_getD, List.getElem?_set_self (by simpa using hy)]
        simp [List.getD_eq_getElem?_getD]
      · rw [List.getD_eq_getElem?_getD, List.getElem?_set_ne hne,
          ← List.getD_eq_getElem?_getD]
    · rw [List.set_eq_of_length_le (le_of_not_lt hy)]

theorem sameShape_setCell (b : Board) (x y : Int) (c : Cell) :
    sameShape b (setCell b x y c) := by
  unfold setCell
  split
  · exact sameShape_setCellN b _ _ c
  · exact sameShape_refl b

theorem iwb_congr {b b2 : Board} (h : sameShape b b2) (x y : Int) :
    is_within_bounds b2 x y = is_within_bounds b x y := by
  unfold is_within_bounds
  rw [sameShape_height h, sameShape_width h]

theorem cellN_setCellN (b : Board) (x y : Nat) (c : Cell) (u v : Nat)
    (hy : y < b.length) (hx : x < (b.getD y []).length) :
    cellN (setCellN b x y c) u v = if u = x ∧ v = y then c else cellN b u v := by
  unfold setCellN
  rw [cellN_def]
  rcases Decidable.em (y = v) with rfl | hv
  · rw [List.getElem?_set_self (by simpa using hy)]
    simp only [Option.getD_some]
    rcases Decidable.em (u = x) with rfl | hu
    · simp only [and_self, if_pos rfl]
      rw [List.getD_eq_getElem?_getD, List.getElem?_set_self hx]
      rfl
    · rw [List.getD_eq_getElem?_getD, List.getElem?_set_ne (fun h => hu h.symm),
        ← List.getD_eq_getElem?_getD]
      simp [hu, cellN]
  · rw [List.getElem?_set_ne hv, ← cellN_def]
    rw [if_neg (fun h : u = x ∧ v = y => hv h.2.symm)]

theorem cellN_setCellN_empty (b : Board) (x y u v : Nat) :
    cellN (setCellN b x y EMPTY) u v =
      if u = x ∧ v = y then EMPTY else cellN b u v := by
  rcases Decidable.em (y < b.length) with hy | hy
  · rcases Decidable.em (x < (b.getD y []).length) with hx | hx
    · exact cellN_setCellN b x y EMPTY u v hy hx
    · rw [setCellN, List.set_eq_of_length_le (le_of_not_lt hx)]
      have hset : b.set y (b.getD y []) = b := by
        apply List.ext_getElem?
        intro n
        rw [List.getElem?_set]
        rcases Decidable.em (y = n) with rfl | hn
        · rw [if_pos rfl, if_pos hy, List.getD_eq_getElem?_getD,
            List.getElem?_eq_getElem (show y < b.length from hy)]
          rfl
        · rw [if_neg hn]
      rw [hset]
      rcases Decidable.em (u = x ∧ v = y) with h | h
      · rw [if_pos h, h.1, h.2]
        exact cellN_oob_col b x y (le_of_not_lt hx)
      · rw [if_neg h]
  · rw [setCellN, List.set_eq_of_length_le (le_of_not_lt hy)]
    rcases Decidable.em (u = x ∧ v = y) with h | h
    · rw [if_pos h, h.1, h.2]
      exact cellN_oob_row b x y (le_of_not_lt hy)
    · rw [if_neg h]

theorem getCell_setCell_empty (b : Board) (x y u v : Int) :
    getCell (setCell b x y EMPTY) u v =
      if u = x ∧ v = y then EMPTY else getCell b u v := by
  unfold setCell
  rcases Decidable.em (0 ≤ x ∧ 0 ≤ y) with hxy | hxy
  · rw [if_pos hxy]
    unfold getCell
    rcases Decidable.em (0 ≤ u ∧ 0 ≤ v) with huv | huv
    · rw [if_pos huv, if_pos huv, cellN_setCellN_empty]
      have hiff : (u.toNat = x.toNat ∧ v.toNat = y.toNat) ↔ (u = x ∧ v = y) := by
        omega
      rcases Decidable.em (u = x ∧ v = y) with h | h
      · rw [if_pos (hiff.mpr h), if_pos h]
      · rw [if_neg (fun hh => h (hiff.mp hh)), if_neg h]
    · rw [if_neg huv, if_neg huv]
      split <;> rfl
  · rw [if_neg hxy]
    rcases Decidable.em (u = x ∧ v = y) with h | h
    · rw [if_pos h]
      unfold getCell
      rw [h.1, h.2, if_neg hxy]
    · rw [if_neg h]

theorem getCell_ne_empty_nonneg {b : Board} {x y : Int}
    (h : getCell b x y ≠ EMPTY) : 0 ≤ x ∧ 0 ≤ y := by
  by_contra hc
  exact h (by simp [getCell, hc])

theorem iwb_iff {b : Board} {x y : Int} :
    is_within_bounds b x y = true ↔
      0 ≤ y ∧ y < (height b : Int) ∧ 0 ≤ x ∧ x < (width b : Int) := by
  simp [is_within_bounds, and_assoc]

/-! ## Counting lemmas -/

theorem countP_mono_idx {α : Type} (d : α) (p : α → Bool) :
    ∀ (l l2 : List α), l2.length = l.length →
      (∀ i, i < l.length → p (l2.getD i d) = true → p (l.getD i d) = true) →
      l2.countP p ≤ l.countP p := by
  intro l
  induction l with
  | nil =>
    intro l2 hlen _
    rw [List.length_eq_zero.mp hlen]
  | cons a t ih =>
    intro l2 hlen h
    cases l2 with
    | nil => simp at hlen
    | cons a2 t2 =>
      rw [List.countP_cons, List.countP_cons]
      have h0 := h 0 (Nat.succ_pos _)
      rw [List.getD_cons_zero, List.getD_cons_zero] at h0
      have ht : t2.countP p ≤ t.countP p := by
        apply ih t2 (by simpa using hlen)
        intro i hi hp
        have := h (i + 1) (Nat.succ_lt_succ hi)
        rw [List.getD_cons_succ, List.getD_cons_succ] at this
        exact this hp
      rcases Decidable.em (p a2 = true) with h2 | h2
      · rw [if_pos h2, if_pos (h0 h2)]
        omega
      · rw [if_neg h2]
        split <;> omega

theorem countP_lt_idx {α : Type} (d : α) (p : α → Bool) :
    ∀ (l l2 : List α), l2.length = l.length →
      (∀ i, i < l.length → p (l2.getD i d) = true → p (l.getD i d) = true) →
      ∀ k, k < l.length → p (l.getD k d) = true → p (l2.getD k d) = false →
      l2.countP p < l.countP p := by
  intro l
  induction l with
  | nil => intro l2 _ _ k hk; simp at hk
  | cons a t ih =>
    intro l2 hlen h k hk hpk hpk2
    cases l2 with
    | nil => simp at hlen
    | cons a2 t2 =>
      rw [List.countP_cons, List.countP_cons]
      have hlen' : t2.length = t.length := by simpa using hlen
      have hpt : ∀ i, i < t.length → p (t2.getD i d) = true → p (t.getD i d) = true := by
        intro i hi hp
        have := h (i + 1) (Nat.succ_lt_succ hi)
        rw [List.getD_cons_succ, List.getD_cons_succ] at this
        exact this hp
      cases k with
      | zero =>
        rw [List.getD_cons_zero] at hpk hpk2
        rw [if_pos hpk, if_neg (by rw [hpk2]; exact Bool.false_ne_true)]
        have := countP_mono_idx d p t t2 hlen' hpt
        omega
      | succ i =>
        rw [List.getD_cons_succ] at hpk hpk2
        have ht := ih t2 hlen' hpt i
          (by simp only [List.length_cons] at hk; omega) hpk hpk2
        have h0 := h 0 (Nat.succ_pos _)
        rw [List.getD_cons_zero, List.getD_cons_zero] at h0
        rcases Decidable.em (p a2 = true) with h2 | h2
        · rw [if_pos h2, if_pos (h0 h2)]; omega
        · rw [if_neg h2]; split <;> omega

theorem colList_getD (b : Board) (j y : Nat) :
    (colList b j).getD y EMPTY = cellN b j y := by
  rw [colList, List.getD_eq_getElem?_getD, List.getElem?_map]
  cases hby : b[y]? with
  | none =>
    rw [cellN_def, hby]; rfl
  | some r =>
    rw [cellN_def, hby]; rfl

theorem length_colList (b : Board) (j : Nat) : (colList b j).length = b.length := by
  simp [colList]

theorem countColor_mono {b b2 : Board} (c : Cell) (hs : sameShape b b2)
    (h : ∀ x y : Nat, cellN b2 x y = cellN b x y ∨ cellN b2 x y = EMPTY)
    (hc : c ≠ EMPTY) : countColor b2 c ≤ countColor b c := by
  unfold countColor
  rw [sameShape_width hs]
  apply List.sum_le_sum
  intro j _
  rw [← List.countP_eq_length_filter, ← List.countP_eq_length_filter]
  apply countP_mono_idx EMPTY _ (colList b j) (colList b2 j)
  · rw [length_colList, length_colList, hs.1]
  · intro i _ hp
    rw [colList_getD] at hp
    rw [colList_getD]
    rcases h j i with heq | hemp
    · rwa [heq] at hp
    · rw [hemp] at hp
      exact absurd (beq_iff_eq.mp hp).symm hc

theorem countColor_lt {b b2 : Board} (c : Cell) (hs : sameShape b b2)
    (h : ∀ x y : Nat, cellN b2 x y = cellN b x y ∨ cellN b2 x y = EMPTY)
    (hc : c ≠ EMPTY) (x0 y0 : Nat) (hx0 : x0 < width b) (hy0 : y0 < height b)
    (hb : cellN b x0 y0 = c) (hb2 : cellN b2 x0 y0 ≠ c) :
    countColor b2 c < countColor b c := by
  unfold countColor
  rw [sameShape_width hs]
  apply List.sum_lt_sum
  · intro j _
    rw [← List.countP_eq_length_filter, ← List.countP_eq_length_filter]
    apply countP_mono_idx EMPTY _ (colList b j) (colList b2 j)
    · rw [length_colList, length_colList, hs.1]
    · intro i _ hp
      rw [colList_getD] at hp
      rw [colList_getD]
      rcases h j i with heq | hemp
      · rwa [heq] at hp
      · rw [hemp] at hp
        exact absurd (beq_iff_eq.mp hp).symm hc
  · refine ⟨x0, List.mem_range.mpr hx0, ?_⟩
    rw [← List.countP_eq_length_filter, ← List.countP_eq_length_filter]
    apply countP_lt_idx EMPTY _ (colList b x0) (colList b2 x0) ?_ ?_ y0 ?_ ?_ ?_
    · rw [length_colList, length_colList, hs.1]
    · intro i _ hp
      rw [colList_getD] at hp
      rw [colList_getD]
      rcases h x0 i with heq | hemp
      · rwa [heq] at hp
      · rw [hemp] at hp
        exact absurd (beq_iff_eq.mp hp).symm hc
    · rw [length_colList]; exact hy0
    · rw [colList_getD, hb]; exact beq_self_eq_true c
    · rw [colList_getD]
      exact beq_eq_false_iff_ne.mpr hb2

theorem cellN_pointwise_of_getCell {b b2 : Board}
    (h : ∀ u v : Int, getCell b2 u v = getCell b u v ∨ getCell b2 u v = EMPTY) :
    ∀ x y : Nat, cellN b2 x y = cellN b x y ∨ cellN b2 x y = EMPTY := by
  intro x y
  have := h (x : Int) (y : Int)
  rwa [getCell_coe, getCell_coe] at this

theorem countColor_setCell_lt {b : Board} {x y : Int} {c : Cell}
    (hiwb : is_within_bounds b x y = true) (hcell : getCell b x y = c)
    (hc : c ≠ EMPTY) :
    countColor (setCell b x y EMPTY) c < countColor b c := by
  obtain ⟨hy0, hyh, hx0, hxw⟩ := iwb_iff.mp hiwb
  apply countColor_lt c (sameShape_setCell b x y EMPTY) ?_ hc x.toNat y.toNat
    (by omega) (by omega)
  · rw [← getCell_coe, Int.toNat_of_nonneg hx0, Int.toNat_of_nonneg hy0]
    exact hcell
  · rw [← getCell_coe, Int.toNat_of_nonneg hx0, Int.toNat_of_nonneg hy0,
      getCell_setCell_empty, if_pos ⟨rfl, rfl⟩]
    exact fun h => hc h.symm
  · apply cellN_pointwise_of_getCell
    intro u v
    rw [getCell_setCell_empty]
    split
    · exact Or.inr rfl
    · exact Or.inl rfl

/-! ## Flood-fill correctness (`dfs`) -/

theorem ite_or_merge {α : Type} {P Q R : Prop} [Decidable P] [Decidable Q]
    [Decidable R] {e g : α} (h : R ↔ P ∨ Q) :
    (if Q then e else if P then e else g) = if R then e else g := by
  by_cases hQ : Q
  · rw [if_pos hQ, if_pos (h.mpr (Or.inr hQ))]
  · rw [if_neg hQ]
    by_cases hP : P
    · rw [if_pos hP, if_pos (h.mpr (Or.inl hP))]
    · rw [if_neg hP, if_neg (fun hR => (h.mp hR).elim hP hQ)]

theorem dfsF_spec {c : Cell} (hc : c ≠ EMPTY) :
    ∀ fuel, ∀ (b : Board) (x y : Int), countColor b c < fuel →
      sameShape b (dfsF fuel b x y c).2 ∧
      (∀ u v : Int, getCell (dfsF fuel b x y c).2 u v =
          if (u, v) ∈ (dfsF fuel b x y c).1 then EMPTY else getCell b u v) ∧
      (∀ p ∈ (dfsF fuel b x y c).1,
          is_within_bounds b p.1 p.2 = true ∧ getCell b p.1 p.2 = c) ∧
      (dfsF fuel b x y c).1.Nodup ∧
      (is_within_bounds b x y = true → getCell b x y = c →
          (x, y) ∈ (dfsF fuel b x y c).1) := by
  intro fuel
  induction fuel with
  | zero => intro b x y hcnt; omega
  | succ fuel ih =>
    intro b x y hcnt
    by_cases hg : is_within_bounds b x y = false ∨ getCell b x y ≠ c
    · have hres : dfsF (fuel + 1) b x y c = ([], b) := by
        rw [dfsF, if_pos hg]
      rw [hres]
      refine ⟨sameShape_refl b, by intro u v; simp, by intro p hp; simp at hp,
        List.nodup_nil, ?_⟩
      intro hiwb hcell
      rcases hg with h | h
      · rw [hiwb] at h; exact absurd h (by simp)
      · exact absurd hcell h
    · have hgn := hg
      push_neg at hg
      obtain ⟨hiwb', hcell⟩ := hg
      have hiwb : is_within_bounds b x y = true := by
        revert hiwb'
        cases is_within_bounds b x y <;> simp
      set b0 := setCell b x y EMPTY with hb0
      set r1 := dfsF fuel b0 (x + 1) y c with hr1
      set r2 := dfsF fuel r1.2 (x - 1) y c with hr2
      set r3 := dfsF fuel r2.2 x (y + 1) c with hr3
      set r4 := dfsF fuel r3.2 x (y - 1) c with hr4
      have heq : dfsF (fuel + 1) b x y c =
          ((x, y) :: (r1.1 ++ r2.1 ++ r3.1 ++ r4.1), r4.2) := by
        rw [dfsF, if_neg hgn]
      have hS0 : sameShape b b0 := by
        rw [hb0]; exact sameShape_setCell b x y EMPTY
      have hP0 : ∀ u v : Int,
          getCell b0 u v = if u = x ∧ v = y then EMPTY else getCell b u v := by
        intro u v; rw [hb0]; exact getCell_setCell_empty b x y u v
      have hlt0 : countColor b0 c < countColor b c := by
        rw [hb0]; exact countColor_setCell_lt hiwb hcell hc
      have IH1 := ih b0 (x + 1) y (by omega)
      rw [← hr1] at IH1
      obtain ⟨hS1, hP1, hM1, hN1, -⟩ := IH1
      have hle1 : countColor r1.2 c ≤ countColor b0 c := by
        refine countColor_mono c hS1 (cellN_pointwise_of_getCell ?_) hc
        intro u v; rw [hP1 u v]; split
        · exact Or.inr rfl
        · exact Or.inl rfl
      have IH2 := ih r1.2 (x - 1) y (by omega)
      rw [← hr2] at IH2
      obtain ⟨hS2, hP2, hM2, hN2, -⟩ := IH2
      have hle2 : countColor r2.2 c ≤ countColor r1.2 c := by
        refine countColor_mono c hS2 (cellN_pointwise_of_getCell ?_) hc
        intro u v; rw [hP2 u v]; split
        · exact Or.inr rfl
        · exact Or.inl rfl
      have IH3 := ih r2.2 x (y + 1) (by omega)
      rw [← hr3] at IH3
      obtain ⟨hS3, hP3, hM3, hN3, -⟩ := IH3
      have hle3 : countColor r3.2 c ≤ countColor r2.2 c := by
        refine countColor_mono c hS3 (cellN_pointwise_of_getCell ?_) hc
        intro u v; rw [hP3 u v]; split
        · exact Or.inr rfl
        · exact Or.inl rfl
      have IH4 := ih r3.2 x (y - 1) (by omega)
      rw [← hr4] at IH4
      obtain ⟨hS4, hP4, hM4, hN4, -⟩ := IH4
      have hSb1 : sameShape b r1.2 := sameShape_trans hS0 hS1
      have hSb2 : sameShape b r2.2 := sameShape_trans hSb1 hS2
      have hSb3 : sameShape b r3.2 := sameShape_trans hSb2 hS3
      have hSb4 : sameShape b r4.2 := sameShape_trans hSb3 hS4
      have hD1 : ∀ u v : Int, getCell r1.2 u v =
          if (u, v) ∈ (x, y) :: r1.1 then EMPTY else getCell b u v := by
        intro u v
        rw [hP1 u v, hP0 u v]
        exact ite_or_merge (by
          simp only [List.mem_cons, List.mem_append, Prod.mk.injEq, or_assoc])
      have hD2 : ∀ u v : Int, getCell r2.2 u v =
          if (u, v) ∈ (x, y) :: (r1.1 ++ r2.1) then EMPTY else getCell b u v := by
        intro u v
        rw [hP2 u v, hD1 u v]
        exact ite_or_merge (by
          simp only [List.mem_cons, List.mem_append, Prod.mk.injEq, or_assoc])
      have hD3 : ∀ u v : Int, getCell r3.2 u v =
          if (u, v) ∈ (x, y) :: (r1.1 ++ r2.1 ++ r3.1) then EMPTY
          else getCell b u v := by
        intro u v
        rw [hP3 u v, hD2 u v]
        exact ite_or_merge (by
          simp only [List.mem_cons, List.mem_append, Prod.mk.injEq, or_assoc])
      have hD4 : ∀ u v : Int, getCell r4.2 u v =
          if (u, v) ∈ (x, y) :: (r1.1 ++ r2.1 ++ r3.1 ++ r4.1) then EMPTY
          else getCell b u v := by
        intro u v
        rw [hP4 u v, hD3 u v]
        exact ite_or_merge (by
          simp only [List.mem_cons, List.mem_append, Prod.mk.injEq, or_assoc])
      have hM1' : ∀ p ∈ r1.1, is_within_bounds b p.1 p.2 = true ∧
          getCell b p.1 p.2 = c ∧ p ≠ ((x, y) : Coord) := by
        intro p hp
        obtain ⟨hpi, hpc⟩ := hM1 p hp
        rw [iwb_congr hS0] at hpi
        have := hP0 p.1 p.2
        rw [hpc] at this
        by_cases h0 : p.1 = x ∧ p.2 = y
        · rw [if_pos h0] at this; exact absurd this hc
        · rw [if_neg h0] at this
          refine ⟨hpi, this.symm, ?_⟩
          intro hpe
          exact h0 ⟨by rw [hpe], by rw [hpe]⟩
      have hM2' : ∀ p ∈ r2.1, is_within_bounds b p.1 p.2 = true ∧
          getCell b p.1 p.2 = c ∧ p ∉ (x, y) :: r1.1 := by
        intro p hp
        obtain ⟨hpi, hpc⟩ := hM2 p hp
        rw [iwb_congr hSb1] at hpi
        have := hD1 p.1 p.2
        rw [hpc, Prod.mk.eta] at this
        by_cases h0 : p ∈ (x, y) :: r1.1
        · rw [if_pos h0] at this; exact absurd this hc
        · rw [if_neg h0] at this
          exact ⟨hpi, this.symm, h0⟩
      have hM3' : ∀ p ∈ r3.1, is_within_bounds b p.1 p.2 = true ∧
          getCell b p.1 p.2 = c ∧ p ∉ (x, y) :: (r1.1 ++ r2.1) := by
        intro p hp
        obtain ⟨hpi, hpc⟩ := hM3 p hp
        rw [iwb_congr hSb2] at hpi
        have := hD2 p.1 p.2
        rw [hpc, Prod.mk.eta] at this
        by_cases h0 : p ∈ (x, y) :: (r1.1 ++ r2.1)
        · rw [if_pos h0] at this; exact absurd this hc
        · rw [if_neg h0] at this
          exact ⟨hpi, this.symm, h0⟩
      have hM4' : ∀ p ∈ r4.1, is_within_bounds b p.1 p.2 = true ∧
          getCell b p.1 p.2 = c ∧ p ∉ (x, y) :: (r1.1 ++ r2.1 ++ r3.1) := by
        intro p hp
        obtain ⟨hpi, hpc⟩ := hM4 p hp
        rw [iwb_congr hSb3] at hpi
        have := hD3 p.1 p.2
        rw [hpc, Prod.mk.eta] at this
        by_cases h0 : p ∈ (x, y) :: (r1.1 ++ r2.1 ++ r3.1)
        · rw [if_pos h0] at this; exact absurd this hc
        · rw [if_neg h0] at this
          exact ⟨hpi, this.symm, h0⟩
      rw [heq]
      refine ⟨hSb4, ?_, ?_, ?_, ?_⟩
      · intro u v
        exact hD4 u v
      · intro p hp
        rcases List.mem_cons.mp hp with rfl | hp
        · exact ⟨hiwb, hcell⟩
        · rcases List.mem_append.mp hp with hp | hp4

          · rcases List.mem_append.mp hp with hp | hp3
            · rcases List.mem_append.mp hp with hp1 | hp2
              · exact ⟨(hM1' p hp1).1, (hM1' p hp1).2.1⟩
              · exact ⟨(hM2' p hp2).1, (hM2' p hp2).2.1⟩
            · exact ⟨(hM3' p hp3).1, (hM3' p hp3).2.1⟩
          · exact ⟨(hM4' p hp4).1, (hM4' p hp4).2.1⟩
      · rw [List.nodup_cons]
        constructor
        · intro hmem
          rcases List.mem_append.mp hmem with hp | hp4
          · rcases List.mem_append.mp hp with hp | hp3
            · rcases List.mem_append.mp hp with hp1 | hp2
              · exact (hM1' _ hp1).2.2 rfl
              · exact (hM2' _ hp2).2.2 (List.mem_cons_self _ _)
            · exact (hM3' _ hp3).2.2 (List.mem_cons_self _ _)
          · exact (hM4' _ hp4).2.2 (List.mem_cons_self _ _)
        · rw [List.append_assoc, List.append_assoc, List.nodup_append]
          refine ⟨hN1, ?_, ?_⟩
          · rw [List.nodup_append]
            refine ⟨hN2, ?_, ?_⟩
            · rw [List.nodup_append]
              refine ⟨hN3, hN4, ?_⟩
              intro p hp3 hp4
              exact (hM4' p hp4).2.2
                (List.mem_cons_of_mem _ (List.mem_append.mpr (Or.inr hp3)))
            · intro p hp2 hpr
              rcases List.mem_append.mp hpr with hp3 | hp4
              · exact (hM3' p hp3).2.2
                  (List.mem_cons_of_mem _ (List.mem_append.mpr (Or.inr hp2)))
              · exact (hM4' p hp4).2.2
                  (List.mem_cons_of_mem _ (List.mem_append.mpr
                    (Or.inl (List.mem_append.mpr (Or.inr hp2)))))
          · intro p hp1 hpr
            rcases List.mem_append.mp hpr with hp2 | hpr
            · exact (hM2' p hp2).2.2 (List.mem_cons_of_mem _ hp1)
            · rcases List.mem_append.mp hpr with hp3 | hp4
              · exact (hM3' p hp3).2.2
                  (List.mem_cons_of_mem _ (List.mem_append.mpr (Or.inl hp1)))
              · exact (hM4' p hp4).2.2
                  (List.mem_cons_of_mem _ (List.mem_append.mpr
                    (Or.inl (List.mem_append.mpr (Or.inl hp1)))))
      · intro _ _
        exact List.mem_cons_self _ _

/-! ## `destroy_blocks` and `step` -/

theorem foldl_clear_shape (L : List Coord) :
    ∀ b : Board,
      sameShape b (L.foldl (fun bb p => setCell bb p.1 p.2 EMPTY) b) := by
  induction L with
  | nil => intro b; exact sameShape_refl b
  | cons a t ih =>
    intro b
    rw [List.foldl_cons]
    exact sameShape_trans (sameShape_setCell b a.1 a.2 EMPTY) (ih _)

theorem foldl_clear_pointwise (L : List Coord) :
    ∀ (b : Board) (u v : Int),
      getCell (L.foldl (fun bb p => setCell bb p.1 p.2 EMPTY) b) u v =
        if (u, v) ∈ L then EMPTY else getCell b u v := by
  induction L with
  | nil => intro b u v; simp
  | cons a t ih =>
    obtain ⟨a1, a2⟩ := a
    intro b u v
    rw [List.foldl_cons, ih, getCell_setCell_empty]
    exact ite_or_merge (by
      simp only [List.mem_cons, Prod.mk.injEq])

theorem dfsF_shape (c : Cell) :
    ∀ fuel (b : Board) (x y : Int), sameShape b (dfsF fuel b x y c).2 := by
  intro fuel
  induction fuel with
  | zero => intro b x y; exact sameShape_refl b
  | succ fuel ih =>
    intro b x y
    by_cases hg : is_within_bounds b x y = false ∨ getCell b x y ≠ c
    · rw [dfsF, if_pos hg]; exact sameShape_refl b
    · have heq : (dfsF (fuel + 1) b x y c).2 =
          (dfsF fuel (dfsF fuel (dfsF fuel (dfsF fuel (setCell b x y EMPTY)
            (x + 1) y c).2 (x - 1) y c).2 x (y + 1) c).2 x (y - 1) c).2 := by
        rw [dfsF, if_neg hg]
      rw [heq]
      exact sameShape_trans (sameShape_setCell b x y EMPTY)
        (sameShape_trans (ih _ _ _) (sameShape_trans (ih _ _ _)
          (sameShape_trans (ih _ _ _) (ih _ _ _))))

theorem destroy_blocks_eq (b : Board) (x y : Int) :
    destroy_blocks b x y =
      (dfs b x y (getCell b x y)).1.foldl
        (fun bb p => setCell bb p.1 p.2 EMPTY)
        (dfs b x y (getCell b x y)).2 := rfl

theorem destroy_blocks_shape (b : Board) (x y : Int) :
    sameShape b (destroy_blocks b x y) := by
  rw [destroy_blocks_eq]
  exact sameShape_trans (dfsF_shape _ _ _ _ _) (foldl_clear_shape _ _)

theorem destroy_blocks_pointwise (b : Board) (x y : Int)
    (hc : getCell b x y ≠ EMPTY) :
    ∀ u v : Int, getCell (destroy_blocks b x y) u v =
      if (u, v) ∈ (dfs b x y (getCell b x y)).1 then EMPTY
      else getCell b u v := by
  intro u v
  have hcnt : countColor b (getCell b x y) < countColor b (getCell b x y) + 1 :=
    Nat.lt_succ_self _
  obtain ⟨-, hP, -, -, -⟩ :=
    dfsF_spec hc (countColor b (getCell b x y) + 1) b x y hcnt
  rw [destroy_blocks_eq, foldl_clear_pointwise]
  have hP' := hP u v
  rw [show dfs b x y (getCell b x y) =
    dfsF (countColor b (getCell b x y) + 1) b x y (getCell b x y) from rfl]
  rw [hP']
  by_cases h : (u, v) ∈ (dfsF (countColor b (getCell b x y) + 1) b x y
      (getCell b x y)).1
  · rw [if_pos h, if_pos h]
  · rw [if_neg h, if_neg h]

theorem dfs_head_mem (b : Board) (x y : Int)
    (hc : getCell b x y ≠ EMPTY) (hiwb : is_within_bounds b x y = true) :
    (x, y) ∈ (dfs b x y (getCell b x y)).1 := by
  obtain ⟨-, -, -, -, hH⟩ :=
    dfsF_spec hc (countColor b (getCell b x y) + 1) b x y (Nat.lt_succ_self _)
  exact hH hiwb rfl

theorem dfs_mem_spec (b : Board) (x y : Int)
    (hc : getCell b x y ≠ EMPTY) :
    ∀ p ∈ (dfs b x y (getCell b x y)).1,
      is_within_bounds b p.1 p.2 = true ∧
        getCell b p.1 p.2 = getCell b x y := by
  obtain ⟨-, -, hM, -, -⟩ :=
    dfsF_spec hc (countColor b (getCell b x y) + 1) b x y (Nat.lt_succ_self _)
  exact hM

theorem dfs_nodup (b : Board) (x y : Int)
    (hc : getCell b x y ≠ EMPTY) :
    (dfs b x y (getCell b x y)).1.Nodup := by
  obtain ⟨-, -, -, hN, -⟩ :=
    dfsF_spec hc (countColor b (getCell b x y) + 1) b x y (Nat.lt_succ_self _)
  exact hN

theorem dfs_board_pointwise (b : Board) (x y : Int)
    (hc : getCell b x y ≠ EMPTY) :
    ∀ u v : Int, getCell (dfs b x y (getCell b x y)).2 u v =
      if (u, v) ∈ (dfs b x y (getCell b x y)).1 then EMPTY
      else getCell b u v := by
  obtain ⟨-, hP, -, -, -⟩ :=
    dfsF_spec hc (countColor b (getCell b x y) + 1) b x y (Nat.lt_succ_self _)
  exact hP

theorem dfs_shape (b : Board) (x y : Int) (c : Cell) :
    sameShape b (dfs b x y c).2 :=
  dfsF_shape c _ b x y

/-! ## Gravity (`move_blocks_down`) -/

theorem countNE_mono {b b2 : Board} (hs : sameShape b b2)
    (h : ∀ x y : Nat, cellN b2 x y = cellN b x y ∨ cellN b2 x y = EMPTY) :
    countNE b2 ≤ countNE b := by
  unfold countNE
  rw [sameShape_width hs]
  apply List.sum_le_sum
  intro j _
  rw [← List.countP_eq_length_filter, ← List.countP_eq_length_filter]
  apply countP_mono_idx EMPTY _ (colList b j) (colList b2 j)
  · rw [length_colList, length_colList, hs.1]
  · intro i _ hp
    rw [colList_getD] at hp
    rw [colList_getD]
    rcases h j i with heq | hemp
    · rwa [heq] at hp
    · rw [hemp] at hp
      simp at hp

theorem countNE_lt {b b2 : Board} (hs : sameShape b b2)
    (h : ∀ x y : Nat, cellN b2 x y = cellN b x y ∨ cellN b2 x y = EMPTY)
    (x0 y0 : Nat) (hx0 : x0 < width b) (hy0 : y0 < height b)
    (hb : cellN b x0 y0 ≠ EMPTY) (hb2 : cellN b2 x0 y0 = EMPTY) :
    countNE b2 < countNE b := by
  unfold countNE
  rw [sameShape_width hs]
  apply List.sum_lt_sum
  · intro j _
    rw [← List.countP_eq_length_filter, ← List.countP_eq_length_filter]
    apply countP_mono_idx EMPTY _ (colList b j) (colList b2 j)
    · rw [length_colList, length_colList, hs.1]
    · intro i _ hp
      rw [colList_getD] at hp
      rw [colList_getD]
      rcases h j i with heq | hemp
      · rwa [heq] at hp
      · rw [hemp] at hp
        simp at hp
  · refine ⟨x0, List.mem_range.mpr hx0, ?_⟩
    rw [← List.countP_eq_length_filter, ← List.countP_eq_length_filter]
    apply countP_lt_idx EMPTY _ (colList b x0) (colList b2 x0) ?_ ?_ y0 ?_ ?_ ?_
    · rw [length_colList, length_colList, hs.1]
    · intro i _ hp
      rw [colList_getD] at hp
      rw [colList_getD]
      rcases h x0 i with heq | hemp
      · rwa [heq] at hp
      · rw [hemp] at hp
        simp at hp
    · rw [length_colList]; exact hy0
    · rw [colList_getD]
      simp [hb]
    · rw [colList_getD, hb2]
      simp

theorem rect_iff (b : Board) :
    rect b ↔ ∀ i, i < b.length → (b.getD i []).length = width b := by
  unfold rect
  constructor
  · intro h i hi
    have hmem : b.getD i [] ∈ b := by
      rw [List.getD_eq_getElem?_getD, List.getElem?_eq_getElem hi]
      exact List.getElem_mem _
    exact h _ hmem
  · intro h r hr
    obtain ⟨i, hi, rfl⟩ := List.mem_iff_getElem.mp hr
    have := h i hi
    rwa [List.getD_eq_getElem?_getD, List.getElem?_eq_getElem hi] at this

theorem rect_of_shape {b b2 : Board} (hs : sameShape b b2) (hr : rect b) :
    rect b2 := by
  rw [rect_iff] at hr ⊢
  intro i hi
  rw [hs.2 i, sameShape_width hs]
  exact hr i (by rw [← hs.1]; exact hi)

theorem writeColN_shape (j : Nat) (col : List Cell) :
    ∀ (n : Nat) (b : Board), sameShape b (writeColN b j col n) := by
  intro n
  induction n with
  | zero => intro b; exact sameShape_refl b
  | succ n ih =>
    intro b
    have : writeColN b j col (n + 1) =
        setCellN (writeColN b j col n) j n (col.getD n EMPTY) := by
      unfold writeColN
      rw [List.range_succ, List.foldl_append, List.foldl_cons, List.foldl_nil]
    rw [this]
    exact sameShape_trans (ih b) (sameShape_setCellN _ _ _ _)

theorem writeColN_pointwise (j : Nat) (col : List Cell) :
    ∀ (n : Nat) (b : Board),
      (∀ i, i < b.length → j < (b.getD i []).length) → n ≤ b.length →
      ∀ u v : Nat,
        cellN (writeColN b j col n) u v =
          if u = j ∧ v < n then col.getD v EMPTY else cellN b u v := by
  intro n
  induction n with
  | zero =>
    intro b _ _ u v
    simp [writeColN]
  | succ n ih =>
    intro b hrow hn u v
    have hstep : writeColN b j col (n + 1) =
        setCellN (writeColN b j col n) j n (col.getD n EMPTY) := by
      unfold writeColN
      rw [List.range_succ, List.foldl_append, List.foldl_cons, List.foldl_nil]
    have hshape := writeColN_shape j col n b
    have hlenW : n < (writeColN b j col n).length := by
      rw [hshape.1]; omega
    have hrowW : j < ((writeColN b j col n).getD n []).length := by
      rw [hshape.2 n]; exact hrow n (by omega)
    rw [hstep, cellN_setCellN _ _ _ _ _ _ hlenW hrowW,
      ih b hrow (by omega) u v]
    by_cases h1 : u = j ∧ v = n
    · rw [if_pos h1, if_pos ⟨h1.1, by omega⟩, h1.2]
    · rw [if_neg h1]
      by_cases h2 : u = j ∧ v < n
      · rw [if_pos h2, if_pos ⟨h2.1, by omega⟩]
      · have hh : ¬(u = j ∧ v < n + 1) := by
          intro hh
          rcases Nat.lt_succ_iff_lt_or_eq.mp hh.2 with hlt | heq
          · exact h2 ⟨hh.1, hlt⟩
          · exact h1 ⟨hh.1, heq⟩
        rw [if_neg h2, if_neg hh]

theorem length_newColumn (b : Board) (j : Nat) :
    (newColumn b j).length = b.length := by
  unfold newColumn
  rw [List.length_append, List.length_replicate]
  have : ((colList b j).filter (fun a => !(a == EMPTY))).length ≤ b.length := by
    calc ((colList b j).filter (fun a => !(a == EMPTY))).length
        ≤ (colList b j).length := List.length_filter_le _ _
      _ = b.length := length_colList b j
  omega

theorem writeColumn_eq (b : Board) (j : Nat) (col : List Cell) :
    writeColumn b j col = writeColN b j col col.length := rfl

theorem colList_congr {b b2 : Board} (j : Nat) (hlen : b2.length = b.length)
    (h : ∀ y, y < b.length → cellN b2 j y = cellN b j y) :
    colList b2 j = colList b j := by
  apply List.ext_getElem
  · rw [length_colList, length_colList, hlen]
  · intro n h1 h2
    rw [length_colList] at h1 h2
    have e1 : (colList b2 j)[n] = (colList b2 j).getD n EMPTY := by
      rw [List.getD_eq_getElem?_getD,
        List.getElem?_eq_getElem (by rw [length_colList]; exact h1)]
      rfl
    have e2 : (colList b j)[n] = (colList b j).getD n EMPTY := by
      rw [List.getD_eq_getElem?_getD,
        List.getElem?_eq_getElem (by rw [length_colList]; exact h2)]
      rfl
    rw [e1, e2, colList_getD, colList_getD]
    exact h n h2

theorem gravN_spec (b : Board) (hrect : rect b) :
    ∀ k, k ≤ width b →
      sameShape b (gravN b k) ∧
      ∀ u v : Nat, cellN (gravN b k) u v =
        if u < k then (newColumn b u).getD v EMPTY else cellN b u v := by
  intro k
  induction k with
  | zero =>
    intro _
    refine ⟨sameShape_refl b, ?_⟩
    intro u v
    simp [gravN]
  | succ k ih =>
    intro hk
    obtain ⟨ihS, ihP⟩ := ih (by omega)
    have hstep : gravN b (k + 1) =
        writeColumn (gravN b k) k (newColumn (gravN b k) k) := by
      unfold gravN
      rw [List.range_succ, List.foldl_append, List.foldl_cons, List.foldl_nil]
    have hcol : colList (gravN b k) k = colList b k := by
      apply colList_congr k ihS.1
      intro y _
      rw [ihP k y, if_neg (by omega)]
    have hnewcol : newColumn (gravN b k) k = newColumn b k := by
      unfold newColumn
      rw [hcol, ihS.1]
    have hrow : ∀ i, i < (gravN b k).length →
        k < ((gravN b k).getD i []).length := by
      intro i hi
      rw [ihS.2 i]
      rw [ihS.1] at hi
      rw [(rect_iff b).mp hrect i hi]
      omega
    have hlen : (newColumn (gravN b k) k).length ≤ (gravN b k).length := by
      rw [hnewcol, length_newColumn, ihS.1]
    have hW := writeColN_pointwise k (newColumn (gravN b k) k)
      (newColumn (gravN b k) k).length (gravN b k) hrow hlen
    constructor
    · rw [hstep, writeColumn_eq]
      exact sameShape_trans ihS (writeColN_shape _ _ _ _)
    · intro u v
      rw [hstep, writeColumn_eq, hW u v, ihP u v, hnewcol, length_newColumn]
      by_cases h1 : u = k ∧ v < b.length
      · rw [if_pos h1, if_pos (by omega), h1.1]
      · rw [if_neg h1]
        by_cases h2 : u < k
        · rw [if_pos h2, if_pos (by omega)]
        · rw [if_neg h2]
          by_cases h3 : u < k + 1
          · rw [if_pos h3]
            have hu : u = k := by omega
            have hv : ¬ v < b.length := fun hvv => h1 ⟨hu, hvv⟩
            rw [hu]
            rw [List.getD_eq_getElem?_getD, List.getElem?_eq_none
              (by rw [length_newColumn]; omega)]
            exact cellN_oob_row b k v (by omega)
          · rw [if_neg h3]

theorem move_blocks_down_eq (b : Board) :
    move_blocks_down b = gravN b (width b) := rfl

theorem move_blocks_down_shape (b : Board) (hrect : rect b) :
    sameShape b (move_blocks_down b) := by
  rw [move_blocks_down_eq]
  exact (gravN_spec b hrect (width b) le_rfl).1

theorem move_blocks_down_pointwise (b : Board) (hrect : rect b) :
    ∀ u v : Nat, u < width b →
      cellN (move_blocks_down b) u v = (newColumn b u).getD v EMPTY := by
  intro u v hu
  rw [move_blocks_down_eq,
    (gravN_spec b hrect (width b) le_rfl).2 u v, if_pos hu]

theorem getElem_eq_getD {l : List Cell} {n : Nat} (h : n < l.length) :
    l[n] = l.getD n EMPTY := by
  rw [List.getD_eq_getElem?_getD, List.getElem?_eq_getElem h]
  rfl

theorem countNE_gravity (b : Board) (hrect : rect b) :
    countNE (move_blocks_down b) = countNE b := by
  have hsh := move_blocks_down_shape b hrect
  have hcol : ∀ j, j < width b →
      colList (move_blocks_down b) j = newColumn b j := by
    intro j hj
    apply List.ext_getElem
    · rw [length_colList, length_newColumn, hsh.1]
    · intro n h1 h2
      have hn : n < width b ∨ True := Or.inr trivial
      rw [getElem_eq_getD h1, getElem_eq_getD h2, colList_getD,
        move_blocks_down_pointwise b hrect j n hj]
  have hfil : ∀ j, j < width b →
      ((newColumn b j).filter (fun a => !(a == EMPTY))) =
        ((colList b j).filter (fun a => !(a == EMPTY))) := by
    intro j _
    unfold newColumn
    rw [List.filter_append]
    have h1 : (List.replicate (b.length -
        ((colList b j).filter (fun a => !(a == EMPTY))).length) EMPTY).filter
          (fun a => !(a == EMPTY)) = [] := by
      rw [List.filter_eq_nil]
      intro a ha
      rw [List.eq_of_mem_replicate ha]
      simp
    have h2 : ((colList b j).filter (fun a => !(a == EMPTY))).filter
        (fun a => !(a == EMPTY)) =
          (colList b j).filter (fun a => !(a == EMPTY)) := by
      rw [List.filter_eq_self]
      intro a ha
      exact (List.mem_filter.mp ha).2
    rw [h1, h2, List.nil_append]
  unfold countNE
  rw [sameShape_width hsh]
  congr 1
  apply List.map_congr_left
  intro j hj
  rw [hcol j (List.mem_range.mp hj), hfil j (List.mem_range.mp hj)]

/-! ## `step` facts -/

theorem is_empty_false_iff {b : Board} {x y : Int} :
    is_empty b x y = false ↔ getCell b x y ≠ EMPTY := by
  unfold is_empty
  simp

theorem step_eq_of_nonempty {b : Board} {x y : Int}
    (h : is_empty b x y = false) :
    step b x y = move_blocks_down (destroy_blocks b x y) := by
  unfold step stepPy
  rw [if_neg (by rw [h]; exact Bool.false_ne_true)]

theorem step_eq_of_empty {b : Board} {x y : Int}
    (h : is_empty b x y = true) : step b x y = b := by
  unfold step stepPy
  rw [if_pos h]

theorem step_shape {b : Board} (x y : Int) (hrect : rect b) :
    sameShape b (step b x y) := by
  rcases Bool.eq_false_or_eq_true (is_empty b x y) with h | h
  · rw [step_eq_of_empty h]
    exact sameShape_refl b
  · rw [step_eq_of_nonempty h]
    have hd := destroy_blocks_shape b x y
    exact sameShape_trans hd
      (move_blocks_down_shape _ (rect_of_shape hd hrect))

theorem step_rect {b : Board} (x y : Int) (hrect : rect b) :
    rect (step b x y) :=
  rect_of_shape (step_shape x y hrect) hrect

theorem countNE_step_lt {b : Board} {x y : Int} (hrect : rect b)
    (hiwb : is_within_bounds b x y = true) (hne : getCell b x y ≠ EMPTY) :
    countNE (step b x y) < countNE b := by
  have hie : is_empty b x y = false := is_empty_false_iff.mpr hne
  rw [step_eq_of_nonempty hie]
  have hd := destroy_blocks_shape b x y
  rw [countNE_gravity _ (rect_of_shape hd hrect)]
  obtain ⟨hx0, hyh, hy0, hxw⟩ :
      0 ≤ x ∧ y < (height b : Int) ∧ 0 ≤ y ∧ x < (width b : Int) := by
    obtain ⟨a, bb, cc, d⟩ := iwb_iff.mp hiwb
    exact ⟨cc, bb, a, d⟩
  apply countNE_lt hd ?_ x.toNat y.toNat (by omega) (by omega)
  · rw [← getCell_coe, Int.toNat_of_nonneg hx0, Int.toNat_of_nonneg hy0]
    exact hne
  · rw [← getCell_coe, Int.toNat_of_nonneg hx0, Int.toNat_of_nonneg hy0,
      destroy_blocks_pointwise b x y hne,
      if_pos (dfs_head_mem b x y hne hiwb)]
  · apply cellN_pointwise_of_getCell
    intro u v
    rw [destroy_blocks_pointwise b x y hne]
    split
    · exact Or.inr rfl
    · exact Or.inl rfl

/-! ## Playout bounds (claim C8 machinery) -/

theorem mem_get_non_empty_blocks {b : Board} {p : Coord} :
    p ∈ get_non_empty_blocks b ↔
      ∃ x y : Nat, x < width b ∧ y < height b ∧ cellN b x y ≠ EMPTY ∧
        p = ((x : Int), (y : Int)) := by
  unfold get_non_empty_blocks
  rw [List.mem_flatMap]
  constructor
  · rintro ⟨y, hy, hp⟩
    rw [List.mem_filterMap] at hp
    obtain ⟨x, hx, hfx⟩ := hp
    rcases Decidable.em (cellN b x y = EMPTY) with hce | hce
    · rw [if_pos hce] at hfx; exact absurd hfx (by simp)
    · rw [if_neg hce] at hfx
      exact ⟨x, y, List.mem_range.mp hx, List.mem_range.mp hy, hce,
        (Option.some_inj.mp hfx).symm⟩
  · rintro ⟨x, y, hx, hy, hce, rfl⟩
    refine ⟨y, List.mem_range.mpr hy, ?_⟩
    rw [List.mem_filterMap]
    exact ⟨x, List.mem_range.mpr hx, by rw [if_neg hce]⟩

theorem getLastD_eq (b : Board) :
    (b.getLast?).getD [] = b.getD (b.length - 1) [] := by
  rw [List.getLast?_eq_getElem?, List.getD_eq_getElem?_getD]

theorem not_terminal_blocks {b : Board} (hrect : rect b)
    (ht : is_terminal b = false) : get_non_empty_blocks b ≠ [] := by
  unfold is_terminal at ht
  rw [List.all_eq_false] at ht
  obtain ⟨e, he, hne⟩ := ht
  have hbne : b ≠ [] := by
    intro hb
    rw [hb] at he
    simp [List.getLast?] at he
  have hlen : 0 < b.length := List.length_pos.mpr hbne
  rw [getLastD_eq] at he
  obtain ⟨i, hi, hei⟩ := List.mem_iff_getElem.mp he
  have hrow : (b.getD (b.length - 1) []).length = width b :=
    (rect_iff b).mp hrect (b.length - 1) (by omega)
  have hcell : cellN b i (b.length - 1) ≠ EMPTY := by
    unfold cellN
    rw [← getElem_eq_getD hi] at *
    rw [hei]
    intro hcontra
    rw [hcontra] at hne
    simp at hne
  have hiw : i < width b := by rw [← hrow]; exact hi
  have hih : b.length - 1 < height b := by
    rw [show height b = b.length from rfl]; omega
  intro hnil
  have : ((i : Int), ((b.length - 1 : Nat) : Int)) ∈ get_non_empty_blocks b :=
    mem_get_non_empty_blocks.mpr
      ⟨i, b.length - 1, hiw, hih, hcell, rfl⟩
  rw [hnil] at this
  exact absurd this (List.not_mem_nil _)

theorem getD_mem {l : List Coord} (h : l ≠ []) (n : Nat) :
    l.getD (n % l.length) (0, 0) ∈ l := by
  have hlen : 0 < l.length := List.length_pos.mpr h
  have hmod : n % l.length < l.length := Nat.mod_lt _ hlen
  rw [List.getD_eq_getElem?_getD, List.getElem?_eq_getElem hmod]
  exact List.getElem_mem _

theorem countNE_le_totalCells (b : Board) : countNE b ≤ totalCells b := by
  unfold countNE totalCells
  have := List.sum_le_card_nsmul
    ((List.range (width b)).map
      (fun j => ((colList b j).filter (fun a => !(a == EMPTY))).length))
    (height b) ?_
  · simpa [smul_eq_mul] using this
  · intro n hn
    rw [List.mem_map] at hn
    obtain ⟨j, -, rfl⟩ := hn
    calc ((colList b j).filter (fun a => !(a == EMPTY))).length
        ≤ (colList b j).length := List.length_filter_le _ _
      _ = b.length := length_colList b j

theorem playoutF_succ_not_terminal (rng : Nat → Nat) (fuel pos : Nat)
    (b : Board) (acc : Nat) (ht : is_terminal b = false) :
    playoutF rng (fuel + 1) pos b acc =
      playoutF rng fuel (pos + 1)
        (step b
          ((get_non_empty_blocks b).getD
            (rng pos % (get_non_empty_blocks b).length) (0, 0)).1
          ((get_non_empty_blocks b).getD
            (rng pos % (get_non_empty_blocks b).length) (0, 0)).2)
        (acc + 1) := by
  rw [playoutF, if_neg (by rw [ht]; exact Bool.false_ne_true)]

theorem playoutF_bound (rng : Nat → Nat) :
    ∀ (fuel : Nat) (b : Board) (pos acc : Nat), rect b →
      (playoutF rng fuel pos b acc).1 ≤ acc + countNE b := by
  intro fuel
  induction fuel with
  | zero => intro b pos acc _; exact Nat.le_add_right _ _
  | succ fuel ih =>
    intro b pos acc hrect
    rcases Bool.eq_false_or_eq_true (is_terminal b) with ht | ht
    · rw [playoutF, if_pos ht]
      exact Nat.le_add_right _ _
    · rw [playoutF_succ_not_terminal rng fuel pos b acc ht]
      have hblocks := not_terminal_blocks hrect ht
      set p := (get_non_empty_blocks b).getD
        (rng pos % (get_non_empty_blocks b).length) (0, 0) with hp
      have hpmem : p ∈ get_non_empty_blocks b := by
        rw [hp]; exact getD_mem hblocks _
      obtain ⟨px, py, hpx, hpy, hpc, hpe⟩ := mem_get_non_empty_blocks.mp hpmem
      have hiwb : is_within_bounds b p.1 p.2 = true := by
        rw [hpe, iwb_iff]
        constructor
        · omega
        · refine ⟨by exact_mod_cast Nat.cast_lt.mpr hpy, by omega,
            by exact_mod_cast Nat.cast_lt.mpr hpx⟩
      have hne : getCell b p.1 p.2 ≠ EMPTY := by
        rw [hpe]
        rw [show (((px : Int), (py : Int)) : Coord).1 = (px : Int) from rfl,
          show (((px : Int), (py : Int)) : Coord).2 = (py : Int) from rfl,
          getCell_coe]
        exact hpc
      have hlt := countNE_step_lt hrect hiwb hne
      have hr := step_rect p.1 p.2 hrect
      have := ih (step b p.1 p.2) (pos + 1) (acc + 1) hr
      omega

theorem playoutF_terminal (rng : Nat → Nat) :
    ∀ (fuel : Nat) (b : Board) (pos acc : Nat), rect b →
      countNE b < fuel →
      is_terminal (playoutF rng fuel pos b acc).2 = true := by
  intro fuel
  induction fuel with
  | zero => intro b pos acc _ h; omega
  | succ fuel ih =>
    intro b pos acc hrect hcnt
    rcases Bool.eq_false_or_eq_true (is_terminal b) with ht | ht
    · rw [playoutF, if_pos ht]
      exact ht
    · rw [playoutF_succ_not_terminal rng fuel pos b acc ht]
      have hblocks := not_terminal_blocks hrect ht
      set p := (get_non_empty_blocks b).getD
        (rng pos % (get_non_empty_blocks b).length) (0, 0) with hp
      have hpmem : p ∈ get_non_empty_blocks b := by
        rw [hp]; exact getD_mem hblocks _
      obtain ⟨px, py, hpx, hpy, hpc, hpe⟩ := mem_get_non_empty_blocks.mp hpmem
      have hiwb : is_within_bounds b p.1 p.2 = true := by
        rw [hpe, iwb_iff]
        constructor
        · omega
        · refine ⟨by exact_mod_cast Nat.cast_lt.mpr hpy, by omega,
            by exact_mod_cast Nat.cast_lt.mpr hpx⟩
      have hne : getCell b p.1 p.2 ≠ EMPTY := by
        rw [hpe]
        rw [show (((px : Int), (py : Int)) : Coord).1 = (px : Int) from rfl,
          show (((px : Int), (py : Int)) : Coord).2 = (py : Int) from rfl,
          getCell_coe]
        exact hpc
      have hlt := countNE_step_lt hrect hiwb hne
      exact ih (step b p.1 p.2) (pos + 1) (acc + 1)
        (step_rect p.1 p.2 hrect) (by omega)

theorem playoutF_acc_le (rng : Nat → Nat) :
    ∀ (fuel : Nat) (b : Board) (pos acc : Nat),
      acc ≤ (playoutF rng fuel pos b acc).1 := by
  intro fuel
  induction fuel with
  | zero => intro b pos acc; exact le_rfl
  | succ fuel ih =>
    intro b pos acc
    rw [playoutF]
    split
    · exact le_rfl
    · exact le_trans (Nat.le_succ acc) (ih _ _ _)

theorem playout_zero_terminal (rng : Nat → Nat) (pos : Nat) (b : Board)
    (h : playout rng pos b = 0) : is_terminal b = true := by
  by_contra ht
  have ht' : is_terminal b = false := by
    rcases Bool.eq_false_or_eq_true (is_terminal b) with h2 | h2
    · exact absurd h2 ht
    · exact h2
  unfold playout at h
  rw [playoutF_succ_not_terminal rng (totalCells b) pos b 0 ht'] at h
  have := playoutF_acc_le rng (totalCells b)
    (step b
      ((get_non_empty_blocks b).getD
        (rng pos % (get_non_empty_blocks b).length) (0, 0)).1
      ((get_non_empty_blocks b).getD
        (rng pos % (get_non_empty_blocks b).length) (0, 0)).2) (pos + 1) (0 + 1)
  omega

/-! ## Packed boards and the terminal check -/

theorem packed_down {b : Board} (hp : packed b) :
    ∀ d y x, x < width b → y < height b → height b - 1 - y = d →
      cellN b x y ≠ EMPTY → cellN b x (height b - 1) ≠ EMPTY := by
  intro d
  induction d with
  | zero =>
    intro y x hx hy hd hne
    have : y = height b - 1 := by omega
    rwa [← this]
  | succ d ih =>
    intro y x hx hy hd hne
    have hy1 : y + 1 < height b := by omega
    exact ih (y + 1) x hx hy1 (by omega) (hp x hx y hy hy1 hne)

theorem is_terminal_iff_bottom {b : Board} (hrect : rect b)
    (hh : 0 < height b) :
    is_terminal b = true ↔
      ∀ x, x < width b → cellN b x (height b - 1) = EMPTY := by
  unfold is_terminal
  rw [getLastD_eq, List.all_eq_true]
  have hrow : (b.getD (b.length - 1) []).length = width b :=
    (rect_iff b).mp hrect (b.length - 1) (by
      rw [show height b = b.length from rfl] at hh; omega)
  constructor
  · intro h x hx
    have hx' : x < (b.getD (b.length - 1) []).length := by rw [hrow]; exact hx
    have hmem : (b.getD (b.length - 1) [])[x] ∈ b.getD (b.length - 1) [] :=
      List.getElem_mem _
    have := h _ hmem
    rw [getElem_eq_getD hx'] at this
    have hc : (b.getD (b.length - 1) []).getD x EMPTY = EMPTY :=
      beq_iff_eq.mp this
    rw [show height b = b.length from rfl]
    exact hc
  · intro h e he
    obtain ⟨i, hi, rfl⟩ := List.mem_iff_getElem.mp he
    have hiw : i < width b := by rw [← hrow]; exact hi
    have := h i hiw
    rw [show height b = b.length from rfl] at this
    rw [getElem_eq_getD hi]
    exact beq_iff_eq.mpr this

theorem packed_terminal_empty {b : Board} (hrect : rect b) (hp : packed b)
    (ht : is_terminal b = true) :
    ∀ x y, x < width b → y < height b → cellN b x y = EMPTY := by
  intro x y hx hy
  by_contra hne
  have hh : 0 < height b := by omega
  exact packed_down hp (height b - 1 - y) y x hx hy rfl hne
    ((is_terminal_iff_bottom hrect hh).mp ht x hx)

theorem terminal_of_empty {b : Board} (hrect : rect b)
    (h : ∀ x y, x < width b → y < height b → cellN b x y = EMPTY) :
    is_terminal b = true := by
  rcases Nat.eq_zero_or_pos (height b) with hh | hh
  · have : b = [] := by
      have : b.length = 0 := hh
      exact List.length_eq_zero.mp this
    rw [this]
    rfl
  · rw [is_terminal_iff_bottom hrect hh]
    intro x hx
    exact h x (height b - 1) hx (by omega)

/-! ## `get_blobs` machinery -/

theorem mem_scanCoords {b : Board} {p : Nat × Nat} :
    p ∈ scanCoords b ↔ p.1 < width b ∧ p.2 < height b := by
  unfold scanCoords
  rw [List.mem_flatMap]
  constructor
  · rintro ⟨y, hy, hp⟩
    rw [List.mem_map] at hp
    obtain ⟨x, hx, rfl⟩ := hp
    exact ⟨List.mem_range.mp hx, List.mem_range.mp hy⟩
  · rintro ⟨h1, h2⟩
    refine ⟨p.2, List.mem_range.mpr h2, ?_⟩
    rw [List.mem_map]
    exact ⟨p.1, List.mem_range.mpr h1, Prod.mk.eta⟩

theorem blobInv_init (b : Board) :
    BlobInv b { bd := b, visited := [], blobsF := [] } := by
  refine ⟨sameShape_refl b, ?_, ?_, ?_, rfl⟩
  · intro u v; simp
  · intro blob hb; simp at hb
  · simp

theorem blobStep_inv {b : Board} {st : BlobSt} (p : Nat × Nat)
    (hp1 : p.1 < width b) (hp2 : p.2 < height b) (h : BlobInv b st) :
    BlobInv b (blobStep st p) ∧
      (∀ q ∈ st.blobsF.flatten, q ∈ (blobStep st p).blobsF.flatten) ∧
      (cellN b p.1 p.2 ≠ EMPTY →
        ((p.1 : Int), (p.2 : Int)) ∈ (blobStep st p).blobsF.flatten) := by
  obtain ⟨hS, hP, hB, hN, hV⟩ := h
  by_cases hg : ((p.1 : Int), (p.2 : Int)) ∈ st.visited ∨
      cellN st.bd p.1 p.2 = EMPTY
  · have hskip : blobStep st p = st := by
      unfold blobStep; rw [if_pos hg]
    rw [hskip]
    refine ⟨⟨hS, hP, hB, hN, hV⟩, fun q hq => hq, ?_⟩
    intro hne
    rcases hg with hg | hg
    · rw [hV] at hg; exact hg
    · have := hP (p.1 : Int) (p.2 : Int)
      rw [getCell_coe] at this
      rw [hg] at this
      by_cases hj : ((p.1 : Int), (p.2 : Int)) ∈ st.blobsF.flatten
      · exact hj
      · rw [if_neg hj, getCell_coe] at this
        exact absurd this.symm hne
  · have hgo : blobStep st p =
        { bd := (get_connected_blocks st.bd (p.1 : Int) (p.2 : Int)).2,
          visited := st.visited ++
            (get_connected_blocks st.bd (p.1 : Int) (p.2 : Int)).1,
          blobsF := st.blobsF ++
            [(get_connected_blocks st.bd (p.1 : Int) (p.2 : Int)).1] } := by
      unfold blobStep; rw [if_neg hg]
    push_neg at hg
    obtain ⟨hnv, hne⟩ := hg
    have hcell : getCell st.bd (p.1 : Int) (p.2 : Int) ≠ EMPTY := by
      rw [getCell_coe]; exact hne
    have hiwb : is_within_bounds st.bd (p.1 : Int) (p.2 : Int) = true := by
      rw [iwb_congr hS, iwb_iff]
      refine ⟨by omega, ?_, by omega, ?_⟩
      · exact_mod_cast Nat.cast_lt.mpr hp2
      · exact_mod_cast Nat.cast_lt.mpr hp1
    have hgcb : get_connected_blocks st.bd (p.1 : Int) (p.2 : Int) =
        dfs st.bd (p.1 : Int) (p.2 : Int)
          (getCell st.bd (p.1 : Int) (p.2 : Int)) := rfl
    have hmemspec := dfs_mem_spec st.bd (p.1 : Int) (p.2 : Int) hcell
    have hbdpt := dfs_board_pointwise st.bd (p.1 : Int) (p.2 : Int) hcell
    have hhead := dfs_head_mem st.bd (p.1 : Int) (p.2 : Int) hcell hiwb
    have hnd := dfs_nodup st.bd (p.1 : Int) (p.2 : Int) hcell
    have hsh := dfs_shape st.bd (p.1 : Int) (p.2 : Int)
      (getCell st.bd (p.1 : Int) (p.2 : Int))
    set l := (dfs st.bd (p.1 : Int) (p.2 : Int)
      (getCell st.bd (p.1 : Int) (p.2 : Int))).1 with hl
    have hflat : (st.blobsF ++ [l]).flatten = st.blobsF.flatten ++ l := by
      rw [List.flatten_append]
      simp
    have hlmem : ∀ q ∈ l, is_within_bounds b q.1 q.2 = true ∧
        getCell b q.1 q.2 = getCell st.bd (p.1 : Int) (p.2 : Int) ∧
        q ∉ st.blobsF.flatten := by
      intro q hq
      obtain ⟨hqi, hqc⟩ := hmemspec q hq
      have hnotin : q ∉ st.blobsF.flatten := by
        intro hqj
        have := hP q.1 q.2
        rw [Prod.mk.eta, if_pos hqj] at this
        rw [this] at hqc
        exact hcell hqc.symm
      have := hP q.1 q.2
      rw [Prod.mk.eta, if_neg hnotin] at this
      rw [iwb_congr hS] at hqi
      rw [this] at hqc
      exact ⟨hqi, hqc, hnotin⟩
    rw [hgo, hgcb]
    refine ⟨⟨?_, ?_, ?_, ?_, ?_⟩, ?_, ?_⟩
    · exact sameShape_trans hS hsh
    · intro u v
      rw [hbdpt u v, hP u v]
      show (if (u, v) ∈ l then EMPTY
        else if (u, v) ∈ st.blobsF.flatten then EMPTY else getCell b u v) = _
      rw [show (st.blobsF ++ [l]).flatten = st.blobsF.flatten ++ l from hflat]
      exact ite_or_merge (by rw [List.mem_append])
    · intro blob hblob
      rcases List.mem_append.mp hblob with hb1 | hb2
      · exact hB blob hb1
      · have : blob = l := by
          rcases List.mem_cons.mp hb2 with h | h
          · exact h
          · exact absurd h (List.not_mem_nil _)
        subst this
        refine ⟨?_, ?_⟩
        · intro hnil; rw [hnil] at hhead; exact List.not_mem_nil _ hhead
        · intro q hq
          obtain ⟨h1, h2, -⟩ := hlmem q hq
          rw [h2]
          exact ⟨h1, hcell⟩
    · rw [hflat, List.nodup_append]
      refine ⟨hN, hnd, ?_⟩
      intro q hq hql
      exact (hlmem q hql).2.2 hq
    · rw [hflat, hV]
    · intro q hq
      rw [hflat]
      exact List.mem_append.mpr (Or.inl hq)
    · intro _
      rw [hflat]
      exact List.mem_append.mpr (Or.inr hhead)

theorem blobFold_inv (b : Board) :
    ∀ (L : List (Nat × Nat)) (st : BlobSt),
      (∀ p ∈ L, p.1 < width b ∧ p.2 < height b) → BlobInv b st →
      BlobInv b (L.foldl blobStep st) ∧
        (∀ q ∈ st.blobsF.flatten, q ∈ (L.foldl blobStep st).blobsF.flatten) ∧
        (∀ p ∈ L, cellN b p.1 p.2 ≠ EMPTY →
          ((p.1 : Int), (p.2 : Int)) ∈ (L.foldl blobStep st).blobsF.flatten) := by
  intro L
  induction L with
  | nil =>
    intro st _ h
    exact ⟨h, fun q hq => hq, fun p hp => absurd hp (List.not_mem_nil _)⟩
  | cons a t ih =>
    intro st hL h
    have ha := hL a (List.mem_cons_self _ _)
    obtain ⟨h1, h2, h3⟩ := blobStep_inv a ha.1 ha.2 h
    have ht : ∀ p ∈ t, p.1 < width b ∧ p.2 < height b := by
      intro p hp; exact hL p (List.mem_cons_of_mem _ hp)
    obtain ⟨ih1, ih2, ih3⟩ := ih (blobStep st a) ht h1
    rw [List.foldl_cons]
    refine ⟨ih1, ?_, ?_⟩
    · intro q hq
      exact ih2 q (h2 q hq)
    · intro p hp hne
      rcases List.mem_cons.mp hp with rfl | hp
      · exact ih2 _ (h3 hne)
      · exact ih3 p hp hne

theorem get_blobs_full_spec (b : Board) :
    (∀ q : Coord, q ∈ (get_blobs_full b).flatten ↔
        is_within_bounds b q.1 q.2 = true ∧ getCell b q.1 q.2 ≠ EMPTY) ∧
      (get_blobs_full b).flatten.Nodup ∧
      (∀ blob ∈ get_blobs_full b, blob ≠ [] ∧ ∀ p ∈ blob,
        is_within_bounds b p.1 p.2 = true ∧ getCell b p.1 p.2 ≠ EMPTY) := by
  have hscan : ∀ p ∈ scanCoords b, p.1 < width b ∧ p.2 < height b := by
    intro p hp; exact mem_scanCoords.mp hp
  obtain ⟨⟨hS, hP, hB, hN, hV⟩, -, hcov⟩ :=
    blobFold_inv b (scanCoords b) _ hscan (blobInv_init b)
  have hfull : get_blobs_full b =
      ((scanCoords b).foldl blobStep
        { bd := b, visited := [], blobsF := [] }).blobsF := rfl
  refine ⟨?_, by rw [hfull]; exact hN, by rw [hfull]; exact hB⟩
  intro q
  rw [hfull]
  constructor
  · intro hq
    rw [List.mem_flatten] at hq
    obtain ⟨blob, hblob, hqb⟩ := hq
    exact (hB blob hblob).2 q hqb
  · rintro ⟨hqi, hqc⟩
    obtain ⟨hy0, hyh, hx0, hxw⟩ := iwb_iff.mp hqi
    have hmem : (q.1.toNat, q.2.toNat) ∈ scanCoords b := by
      rw [mem_scanCoords]
      constructor <;> [skip; skip] <;> simp <;> omega
    have hcell : cellN b q.1.toNat q.2.toNat ≠ EMPTY := by
      rw [← getCell_coe, Int.toNat_of_nonneg hx0, Int.toNat_of_nonneg hy0]
      exact hqc
    have := hcov (q.1.toNat, q.2.toNat) hmem hcell
    rw [show ((q.1.toNat : Int), (q.2.toNat : Int)) = q from by
      rw [Int.toNat_of_nonneg hx0, Int.toNat_of_nonneg hy0]] at this
    exact this

theorem get_blobs_nil_iff (b : Board) :
    get_blobs b = [] ↔
      ∀ x y : Nat, x < width b → y < height b → cellN b x y = EMPTY := by
  obtain ⟨hiff, -, hblobs⟩ := get_blobs_full_spec b
  unfold get_blobs
  rw [List.map_eq_nil]
  constructor
  · intro hnil x y hx hy
    by_contra hne
    have hmem : (((x : Nat) : Int), ((y : Nat) : Int)) ∈
        (get_blobs_full b).flatten := by
      rw [hiff]
      constructor
      · rw [iwb_iff]
        refine ⟨by omega, ?_, by omega, ?_⟩
        · exact_mod_cast Nat.cast_lt.mpr hy
        · exact_mod_cast Nat.cast_lt.mpr hx
      · rw [getCell_coe]
        exact hne
    rw [hnil] at hmem
    simp at hmem
  · intro hall
    by_contra hne
    obtain ⟨blob, hblob⟩ := List.exists_mem_of_ne_nil _ hne
    obtain ⟨hbe, hbp⟩ := hblobs blob hblob
    obtain ⟨q, hq⟩ := List.exists_mem_of_ne_nil _ hbe
    obtain ⟨hqi, hqc⟩ := hbp q hq
    obtain ⟨hy0, hyh, hx0, hxw⟩ := iwb_iff.mp hqi
    apply hqc
    rw [← Int.toNat_of_nonneg hx0, ← Int.toNat_of_nonneg hy0, getCell_coe]
    exact hall q.1.toNat q.2.toNat (by omega) (by omega)

/-! ## Claim theorems (board layer) -/

/-- C4 counterexample: on the (rectangular but not gravity-packed) board
with a block above an empty bottom cell, `is_terminal` is true while
`get_blobs` still finds a blob — the equivalence as stated over *every*
board is false. -/
theorem is_terminal_not_blobs_nil :
    is_terminal [['B'], [' ']] = true ∧ get_blobs [['B'], [' ']] ≠ [] := by
  constructor
  · rfl
  · decide

/-- C4 (amended): on rectangular, gravity-packed boards (the only boards
the engine ever hands to `is_terminal`: file boards contain no empty
marker, and every move ends with `move_blocks_down`), `is_terminal`
is true iff `get_blobs` is empty. -/
theorem is_terminal_iff_blobs (b : Board) (hrect : rect b) (hp : packed b) :
    (is_terminal b = true ↔ get_blobs b = []) := by
  constructor
  · intro ht
    rw [get_blobs_nil_iff]
    intro x y hx hy
    exact packed_terminal_empty hrect hp ht x y hx hy
  · intro hb
    exact terminal_of_empty hrect ((get_blobs_nil_iff b).mp hb)

/-- C4 amended, witnessed on the packed board `[["G"], ["B"]]` (not
terminal, one blob per cell) — the instantiated equivalence holds. -/
theorem is_terminal_iff_blobs_witness :
    rect [['G'], ['B']] ∧ packed [['G'], ['B']] ∧
      (is_terminal [['G'], ['B']] = true ↔ get_blobs [['G'], ['B']] = []) :=
  ⟨by decide, by decide, is_terminal_iff_blobs _ (by decide) (by decide)⟩

/-- C7: on rectangular boards the components discovered by `get_blobs`
partition the non-empty cells exactly once — their union is exactly the
set of in-bounds non-empty cells, no cell occurs in two components (the
flattened components are duplicate-free), and every component is
non-empty (a singleton block is its own blob of size 1). -/
theorem get_blobs_partition (b : Board) (hrect : rect b) :
    (∀ q : Coord, q ∈ (get_blobs_full b).flatten ↔
        is_within_bounds b q.1 q.2 = true ∧ getCell b q.1 q.2 ≠ EMPTY) ∧
      (get_blobs_full b).flatten.Nodup ∧
      (∀ blob ∈ get_blobs_full b, blob ≠ []) := by
  obtain ⟨h1, h2, h3⟩ := get_blobs_full_spec b
  exact ⟨h1, h2, fun blob hb => (h3 blob hb).1⟩

/-- C7, witnessed on the 2×2 board `[["B", "B"], ["G", "B"]]`. -/
theorem get_blobs_partition_witness :
    rect [['B', 'B'], ['G', 'B']] ∧
      ((∀ q : Coord, q ∈ (get_blobs_full [['B', 'B'], ['G', 'B']]).flatten ↔
          is_within_bounds [['B', 'B'], ['G', 'B']] q.1 q.2 = true ∧
            getCell [['B', 'B'], ['G', 'B']] q.1 q.2 ≠ EMPTY) ∧
        (get_blobs_full [['B', 'B'], ['G', 'B']]).flatten.Nodup ∧
        (∀ blob ∈ get_blobs_full [['B', 'B'], ['G', 'B']], blob ≠ [])) :=
  ⟨by decide, get_blobs_partition _ (by decide)⟩

/-- C8 counterexample: `playout` returns 0 on the board `[["B"], [" "]]`,
which has a non-empty cell — `is_terminal` looks only at the bottom row,
so on a non-packed board a zero move count does not imply an empty
board, refuting the claim over *every* board. -/
theorem playout_zero_nonempty :
    playout (fun _ => 0) 0 [['B'], [' ']] = 0 ∧
      cellN [['B'], [' ']] 0 0 ≠ EMPTY := by
  constructor
  · rfl
  · decide

/-- C8 (amended): on rectangular, gravity-packed boards, `playout`
terminates within at most `width * height` moves (reaching a board whose
`is_terminal` check holds), and it returns 0 only if the board has no
non-empty cells at the start. -/
theorem playout_spec (b : Board) (rng : Nat → Nat) (pos : Nat)
    (hrect : rect b) (hp : packed b) :
    playout rng pos b ≤ totalCells b ∧
      is_terminal (playoutF rng (totalCells b + 1) pos b 0).2 = true ∧
      (playout rng pos b = 0 →
        ∀ x y : Nat, x < width b → y < height b → cellN b x y = EMPTY) := by
  refine ⟨?_, ?_, ?_⟩
  · have := playoutF_bound rng (totalCells b + 1) b pos 0 hrect
    have h2 := countNE_le_totalCells b
    unfold playout
    omega
  · exact playoutF_terminal rng (totalCells b + 1) b pos 0 hrect
      (by have := countNE_le_totalCells b; omega)
  · intro h0
    exact packed_terminal_empty hrect hp (playout_zero_terminal rng pos b h0)

/-- C8 amended, witnessed on the packed board `[["B", "G"]]`. -/
theorem playout_spec_witness :
    rect [['B', 'G']] ∧ packed [['B', 'G']] ∧
      (playout (fun _ => 0) 0 [['B', 'G']] ≤ totalCells [['B', 'G']] ∧
        is_terminal (playoutF (fun _ => 0)
          (totalCells [['B', 'G']] + 1) 0 [['B', 'G']] 0).2 = true ∧
        (playout (fun _ => 0) 0 [['B', 'G']] = 0 →
          ∀ x y : Nat, x < width [['B', 'G']] → y < height [['B', 'G']] →
            cellN [['B', 'G']] x y = EMPTY)) :=
  ⟨by decide, by decide, playout_spec _ _ _ (by decide) (by decide)⟩

/-! ## MCTS arena lemmas -/

theorem getD_set_self {α : Type} (l : List α) (i : Nat) (v d : α)
    (h : i < l.length) : (l.set i v).getD i d = v := by
  rw [List.getD_eq_getElem?_getD, List.getElem?_set_self (by simpa using h)]
  rfl

theorem getD_set_ne {α : Type} (l : List α) (i j : Nat) (v d : α)
    (h : i ≠ j) : (l.set i v).getD j d = l.getD j d := by
  rw [List.getD_eq_getElem?_getD, List.getElem?_set_ne h,
    ← List.getD_eq_getElem?_getD]

theorem getD_append_lt {α : Type} (l l2 : List α) (j : Nat) (d : α)
    (h : j < l.length) : (l ++ l2).getD j d = l.getD j d := by
  rw [List.getD_eq_getElem?_getD, List.getElem?_append, if_pos h,
    ← List.getD_eq_getElem?_getD]

theorem getD_append_len {α : Type} (l : List α) (c d : α) :
    (l ++ [c]).getD l.length d = c := by
  rw [List.getD_eq_getElem?_getD, List.getElem?_append,
    if_neg (lt_irrefl _), Nat.sub_self]
  rfl

theorem getN_setN_self {s : MCTSState} {i : Nat} (nd : NodeData)
    (h : i < s.nodes.length) : getN (setN s i nd) i = nd :=
  getD_set_self s.nodes i nd default h

theorem getN_setN_ne {s : MCTSState} {i j : Nat} (nd : NodeData)
    (h : i ≠ j) : getN (setN s i nd) j = getN s j :=
  getD_set_ne s.nodes i j nd default h

theorem getN_setN_cases (s : MCTSState) (i j : Nat) (nd : NodeData) :
    getN (setN s i nd) j =
      if i = j ∧ i < s.nodes.length then nd else getN s j := by
  by_cases h : i = j ∧ i < s.nodes.length
  · rw [if_pos h]
    obtain ⟨hij, hlt⟩ := h
    subst hij
    exact getN_setN_self nd hlt
  · rw [if_neg h]
    by_cases hij : i = j
    · have hlen : s.nodes.length ≤ i := by
        by_contra hcon
        exact h ⟨hij, by omega⟩
      show (s.nodes.set i nd).getD j default = s.nodes.getD j default
      rw [List.set_eq_of_length_le hlen]
    · exact getN_setN_ne nd hij

theorem setN_len (s : MCTSState) (i : Nat) (nd : NodeData) :
    (setN s i nd).nodes.length = s.nodes.length := List.length_set _ _ _

theorem WFState_setN_stats {s : MCTSState} {i : Nat} {nd : NodeData}
    (h : WFState s) (hp : nd.parent = (getN s i).parent)
    (hc : nd.children = (getN s i).children) : WFState (setN s i nd) := by
  obtain ⟨h1, h2, h3, h4⟩ := h
  have hpar : ∀ j, (getN (setN s i nd) j).parent = (getN s j).parent := by
    intro j
    rw [getN_setN_cases]
    split
    · next hij => rw [hp, hij.1]
    · rfl
  have hch : ∀ j, (getN (setN s i nd) j).children = (getN s j).children := by
    intro j
    rw [getN_setN_cases]
    split
    · next hij => rw [hc, hij.1]
    · rfl
  refine ⟨by rw [setN_len]; exact h1, ?_, ?_, ?_⟩
  · intro j hj
    rw [hpar j]
    exact h2 j (by rw [setN_len] at hj; exact hj)
  · intro j p hj hjp
    rw [hpar j] at hjp
    exact h3 j p (by rw [setN_len] at hj; exact hj) hjp
  · intro j hj c hcmem
    rw [hch j] at hcmem
    rw [setN_len] at hj
    obtain ⟨hb, hpc⟩ := h4 j hj c hcmem
    rw [setN_len, hpar c]
    exact ⟨hb, hpc⟩

theorem backpropF_none (sc : ℚ) : ∀ f (s : MCTSState),
    backpropF sc f s none = s := by
  intro f s
  cases f <;> rfl

theorem backpropF_len (sc : ℚ) : ∀ f (s : MCTSState) o,
    (backpropF sc f s o).nodes.length = s.nodes.length := by
  intro f
  induction f with
  | zero => intro s o; rfl
  | succ f ih =>
    intro s o
    cases o with
    | none => rfl
    | some i =>
      rw [backpropF, ih]
      exact setN_len _ _ _

theorem backpropF_fields (sc : ℚ) : ∀ f (s : MCTSState) o,
    (backpropF sc f s o).selection_threshold = s.selection_threshold ∧
      (backpropF sc f s o).solution_found = s.solution_found ∧
      (backpropF sc f s o).best_solution = s.best_solution := by
  intro f
  induction f with
  | zero => intro s o; exact ⟨rfl, rfl, rfl⟩
  | succ f ih =>
    intro s o
    cases o with
    | none => exact ⟨rfl, rfl, rfl⟩
    | some i =>
      rw [backpropF]
      exact ih _ _

theorem backpropF_struct (sc : ℚ) : ∀ f (s : MCTSState) o j,
    (getN (backpropF sc f s o) j).parent = (getN s j).parent ∧
      (getN (backpropF sc f s o) j).children = (getN s j).children := by
  intro f
  induction f with
  | zero => intro s o j; exact ⟨rfl, rfl⟩
  | succ f ih =>
    intro s o j
    cases o with
    | none => exact ⟨rfl, rfl⟩
    | some i =>
      rw [backpropF]
      obtain ⟨ih1, ih2⟩ := ih _ (getN s i).parent j
      rw [ih1, ih2, getN_setN_cases]
      split
      · next hij => rw [← hij.1]; exact ⟨rfl, rfl⟩
      · exact ⟨rfl, rfl⟩

theorem backpropF_visits_mono (sc : ℚ) : ∀ f (s : MCTSState) o j,
    (getN s j).n_visits ≤ (getN (backpropF sc f s o) j).n_visits := by
  intro f
  induction f with
  | zero => intro s o j; exact le_rfl
  | succ f ih =>
    intro s o j
    cases o with
    | none => exact le_rfl
    | some i =>
      rw [backpropF]
      refine le_trans ?_ (ih _ (getN s i).parent j)
      rw [getN_setN_cases]
      split
      · next hij => rw [← hij.1]; exact Nat.le_succ _
      · exact le_rfl

theorem backpropF_root (sc : ℚ) : ∀ f (s : MCTSState) i, WFState s →
    i < s.nodes.length → i + 1 ≤ f →
    (getN (backpropF sc f s (some i)) 0).n_visits =
      (getN s 0).n_visits + 1 := by
  intro f
  induction f with
  | zero => intro s i _ _ h; omega
  | succ f ih =>
    intro s i hWF hi hf
    rw [backpropF]
    have hW2 := hWF.2.1 i hi
    cases hp : (getN s i).parent with
    | none =>
      have hi0 : i = 0 := hW2.mp hp
      subst hi0
      rw [backpropF_none]
      rw [getN_setN_self _ hi]
      rfl
    | some p =>
      have hine : i ≠ 0 := by
        intro h0
        have hnone : (getN s i).parent = none := hW2.mpr h0
        rw [hp] at hnone
        exact absurd hnone (Option.some_ne_none p)
      have hplt : p < i := hWF.2.2.1 i p hi hp
      have hWF' : WFState (setN s i (bpUpdate (getN s i) sc)) :=
        WFState_setN_stats hWF rfl rfl
      have := ih (setN s i (bpUpdate (getN s i) sc)) p hWF'
        (by rw [setN_len]; omega) (by omega)
      rw [this]
      rw [getN_setN_cases, if_neg (by
        intro hcon
        exact hine hcon.1)]

theorem backpropagate_len (s : MCTSState) (i : Nat) (sc : ℚ) :
    (backpropagate s i sc).nodes.length = s.nodes.length :=
  backpropF_len sc _ s (some i)

theorem backpropagate_root (s : MCTSState) (i : Nat) (sc : ℚ)
    (hWF : WFState s) (hi : i < s.nodes.length) :
    (getN (backpropagate s i sc) 0).n_visits = (getN s 0).n_visits + 1 :=
  backpropF_root sc _ s i hWF hi (by omega)

theorem backpropagate_start (s : MCTSState) (i : Nat) (sc : ℚ)
    (hi : i < s.nodes.length) :
    (getN s i).n_visits + 1 ≤ (getN (backpropagate s i sc) i).n_visits := by
  unfold backpropagate
  rw [backpropF]
  refine le_trans ?_ (backpropF_visits_mono sc _ _ (getN s i).parent i)
  rw [getN_setN_self _ hi]
  exact le_rfl

theorem backpropagate_WF (s : MCTSState) (i : Nat) (sc : ℚ)
    (hWF : WFState s) : WFState (backpropagate s i sc) := by
  obtain ⟨h1, h2, h3, h4⟩ := hWF
  unfold backpropagate
  have hlen := backpropF_len sc (s.nodes.length + 1) s (some i)
  have hstruct := backpropF_struct sc (s.nodes.length + 1) s (some i)
  refine ⟨by rw [hlen]; exact h1, ?_, ?_, ?_⟩
  · intro j hj
    rw [(hstruct j).1]
    exact h2 j (by rw [hlen] at hj; exact hj)
  · intro j p hj hjp
    rw [(hstruct j).1] at hjp
    exact h3 j p (by rw [hlen] at hj; exact hj) hjp
  · intro j hj c hc
    rw [(hstruct j).2] at hc
    rw [hlen] at hj
    obtain ⟨hb, hpc⟩ := h4 j hj c hc
    rw [hlen, (hstruct c).1]
    exact ⟨hb, hpc⟩

/-! ## Expansion lemmas -/

theorem expand_snd (s : MCTSState) (i : Nat) :
    (expand s i).2 = s.nodes.length := rfl

theorem expand_nodes (s : MCTSState) (i : Nat) :
    (expand s i).1.nodes =
      (s.nodes ++ [mkNode
          (step (getN s i).board
            ((getN s i).blobs.getD (getN s i).children.length (0, 0)).1
            ((getN s i).blobs.getD (getN s i).children.length (0, 0)).2)
          ((getN s i).depth + 1) (some i)
          (some ((getN s i).blobs.getD (getN s i).children.length (0, 0)))]).set
        i { getN s i with
            children := (getN s i).children ++ [s.nodes.length] } := rfl

theorem expand_fields (s : MCTSState) (i : Nat) :
    (expand s i).1.selection_threshold = s.selection_threshold ∧
      (expand s i).1.solution_found = s.solution_found ∧
      (expand s i).1.best_solution = s.best_solution :=
  ⟨rfl, rfl, rfl⟩

theorem expand_len (s : MCTSState) (i : Nat) :
    (expand s i).1.nodes.length = s.nodes.length + 1 := by
  rw [expand_nodes, List.length_set, List.length_append]
  rfl

theorem expand_getN_old {s : MCTSState} {i j : Nat}
    (hj : j < s.nodes.length) (hij : j ≠ i) :
    getN (expand s i).1 j = getN s j := by
  show (expand s i).1.nodes.getD j default = s.nodes.getD j default
  rw [expand_nodes, getD_set_ne _ _ _ _ _ (fun h => hij h.symm),
    getD_append_lt _ _ _ _ hj]

theorem expand_getN_i {s : MCTSState} {i : Nat} (hi : i < s.nodes.length) :
    getN (expand s i).1 i =
      { getN s i with
        children := (getN s i).children ++ [s.nodes.length] } := by
  show (expand s i).1.nodes.getD i default = _
  rw [expand_nodes]
  exact getD_set_self _ _ _ _ (by rw [List.length_append]; omega)

theorem expand_getN_new {s : MCTSState} {i : Nat} (hi : i < s.nodes.length) :
    getN (expand s i).1 s.nodes.length =
      mkNode
        (step (getN s i).board
          ((getN s i).blobs.getD (getN s i).children.length (0, 0)).1
          ((getN s i).blobs.getD (getN s i).children.length (0, 0)).2)
        ((getN s i).depth + 1) (some i)
        (some ((getN s i).blobs.getD (getN s i).children.length (0, 0))) := by
  show (expand s i).1.nodes.getD s.nodes.length default = _
  rw [expand_nodes, getD_set_ne _ _ _ _ _ (by omega),
    getD_append_len]

theorem expand_visits {s : MCTSState} {i : Nat} (hi : i < s.nodes.length) :
    ∀ j, j < s.nodes.length →
      (getN (expand s i).1 j).n_visits = (getN s j).n_visits := by
  intro j hj
  by_cases hij : j = i
  · subst hij
    rw [expand_getN_i hi]
  · rw [expand_getN_old hj hij]

theorem expand_WF {s : MCTSState} {i : Nat} (hWF : WFState s)
    (hi : i < s.nodes.length) : WFState (expand s i).1 := by
  obtain ⟨h1, h2, h3, h4⟩ := hWF
  have hlen := expand_len s i
  have hpar : ∀ j, j < s.nodes.length →
      (getN (expand s i).1 j).parent = (getN s j).parent := by
    intro j hj
    by_cases hij : j = i
    · subst hij
      rw [expand_getN_i hi]
    · rw [expand_getN_old hj hij]
  refine ⟨by omega, ?_, ?_, ?_⟩
  · intro j hj
    rw [hlen] at hj
    by_cases hjl : j < s.nodes.length
    · rw [hpar j hjl]
      exact h2 j hjl
    · have hj' : j = s.nodes.length := by omega
      subst hj'
      rw [expand_getN_new hi]
      constructor
      · intro hcon
        exact absurd hcon (Option.some_ne_none i)
      · intro h0
        omega
  · intro j p hj hjp
    rw [hlen] at hj
    by_cases hjl : j < s.nodes.length
    · rw [hpar j hjl] at hjp
      exact h3 j p hjl hjp
    · have hj' : j = s.nodes.length := by omega
      subst hj'
      rw [expand_getN_new hi] at hjp
      have : p = i := by
        have : (some i : Option Nat) = some p := hjp
        exact (Option.some_inj.mp this).symm
      omega
  · intro j hj c hc
    rw [hlen] at hj
    by_cases hjl : j < s.nodes.length
    · by_cases hij : j = i
      · subst hij
        rw [expand_getN_i hi] at hc
        rcases List.mem_append.mp hc with hold | hnew
        · obtain ⟨hb, hpc⟩ := h4 j hjl c hold
          refine ⟨by omega, ?_⟩
          rw [hpar c hb]
          exact hpc
        · have hc' : c = s.nodes.length := by
            rcases List.mem_cons.mp hnew with h | h
            · exact h
            · exact absurd h (List.not_mem_nil _)
          subst hc'
          refine ⟨by omega, ?_⟩
          rw [expand_getN_new hi]
          rfl
      · rw [expand_getN_old hjl hij] at hc
        obtain ⟨hb, hpc⟩ := h4 j hjl c hc
        refine ⟨by omega, ?_⟩
        by_cases hci : c = i
        · subst hci
          rw [expand_getN_i hi]
          exact hpc
        · rw [expand_getN_old hb hci]
          exact hpc
    · have hj' : j = s.nodes.length := by omega
      subst hj'
      rw [expand_getN_new hi] at hc
      exact absurd hc (List.not_mem_nil _)

/-! ## Selection lemmas -/

theorem selection_strategy_state {rng : Nat → Nat}
    {uc : MCTSState → Nat → Nat} {pos : Nat} {s : MCTSState} {i : Nat}
    (h : node_is_leaf (getN s i) = false) :
    (selection_strategy rng uc pos s i).1 = s := by
  unfold selection_strategy
  rw [if_neg (by rw [h]; exact Bool.false_ne_true)]
  split <;> rfl

theorem selection_strategy_node_lt {rng : Nat → Nat}
    {uc : MCTSState → Nat → Nat} {pos : Nat} {s : MCTSState} {i : Nat}
    (h : node_is_leaf (getN s i) = false) (hWF : WFState s)
    (hi : i < s.nodes.length) :
    (selection_strategy rng uc pos s i).2.1 < s.nodes.length := by
  unfold selection_strategy
  rw [if_neg (by rw [h]; exact Bool.false_ne_true)]
  have hcc : ∀ k : Nat,
      (getN s i).children.getD (k % (getN s i).children.length) 0 <
        s.nodes.length := by
    intro k
    rcases eq_or_ne (getN s i).children [] with hnil | hne
    · rw [hnil]
      exact hWF.1
    · have hlen : 0 < (getN s i).children.length := List.length_pos.mpr hne
      have hmod : k % (getN s i).children.length <
          (getN s i).children.length := Nat.mod_lt _ hlen
      rw [List.getD_eq_getElem?_getD, List.getElem?_eq_getElem hmod]
      exact (hWF.2.2.2 i hi _ (List.getElem_mem _)).1
  split
  · exact hcc _
  · exact hcc _

theorem selectLoopF_state (rng : Nat → Nat) (uc : MCTSState → Nat → Nat) :
    ∀ (f pos : Nat) (s : MCTSState) (i : Nat),
      (selectLoopF rng uc f pos s i).1.nodes = s.nodes ∧
        (selectLoopF rng uc f pos s i).1.selection_threshold =
          s.selection_threshold ∧
        ((s.solution_found = true → s.best_solution.isSome = true) →
          ((selectLoopF rng uc f pos s i).1.solution_found = true →
            (selectLoopF rng uc f pos s i).1.best_solution.isSome = true)) := by
  intro f
  induction f with
  | zero => intro pos s i; exact ⟨rfl, rfl, fun h => h⟩
  | succ f ih =>
    intro pos s i
    rw [selectLoopF]
    by_cases h1 : node_is_leaf (getN s i) = true
    · rw [if_pos h1]
      exact ⟨rfl, rfl, fun h => h⟩
    · have h1' : node_is_leaf (getN s i) = false := by
        rcases Bool.eq_false_or_eq_true (node_is_leaf (getN s i)) with h | h
        · exact absurd h h1
        · exact h
      rw [if_neg h1]
      by_cases h2 : is_terminal (getN s i).board = true
      · rw [if_pos h2]
        refine ⟨rfl, rfl, ?_⟩
        intro _ _
        cases s.best_solution with
        | none => rfl
        | some bi =>
          show (if (getN s i).depth < (getN s bi).depth then some i
            else some bi).isSome = true
          split <;> rfl
      · rw [if_neg h2]
        rw [selection_strategy_state h1']
        obtain ⟨ihn, iht, ihp⟩ := ih (selection_strategy rng uc pos s i).2.2 s
          (selection_strategy rng uc pos s i).2.1
        exact ⟨ihn, iht, ihp⟩

theorem selectLoopF_node_lt (rng : Nat → Nat) (uc : MCTSState → Nat → Nat) :
    ∀ (f pos : Nat) (s : MCTSState) (i : Nat), WFState s →
      i < s.nodes.length →
      (selectLoopF rng uc f pos s i).2.1 < s.nodes.length := by
  intro f
  induction f with
  | zero => intro pos s i _ hi; exact hi
  | succ f ih =>
    intro pos s i hWF hi
    rw [selectLoopF]
    by_cases h1 : node_is_leaf (getN s i) = true
    · rw [if_pos h1]; exact hi
    · have h1' : node_is_leaf (getN s i) = false := by
        rcases Bool.eq_false_or_eq_true (node_is_leaf (getN s i)) with h | h
        · exact absurd h h1
        · exact h
      rw [if_neg h1]
      by_cases h2 : is_terminal (getN s i).board = true
      · rw [if_pos h2]; exact hi
      · rw [if_neg h2]
        rw [selection_strategy_state h1']
        exact ih _ s _ hWF (selection_strategy_node_lt h1' hWF hi)

/-! ## Iteration invariants -/

theorem getN_congr {s s2 : MCTSState} (h : s2.nodes = s.nodes) (j : Nat) :
    getN s2 j = getN s j := by
  unfold getN
  rw [h]

theorem WFState_congr {s s2 : MCTSState} (h : s2.nodes = s.nodes)
    (hW : WFState s) : WFState s2 := by
  obtain ⟨h1, h2, h3, h4⟩ := hW
  refine ⟨by rw [h]; exact h1, ?_, ?_, ?_⟩
  · intro j hj
    rw [getN_congr h]
    exact h2 j (by rw [h] at hj; exact hj)
  · intro j p hj hp
    rw [getN_congr h] at hp
    exact h3 j p (by rw [h] at hj; exact hj) hp
  · intro j hj c hc
    rw [getN_congr h] at hc
    rw [h] at hj
    obtain ⟨hb, hpc⟩ := h4 j hj c hc
    rw [h, getN_congr h]
    exact ⟨hb, hpc⟩

theorem searchIter_spec (rng : Nat → Nat) (uc : MCTSState → Nat → Nat)
    (s : MCTSState) (pos : Nat) (hWF : WFState s)
    (hV : ∀ j, 0 < j → j < s.nodes.length → 1 ≤ (getN s j).n_visits) :
    WFState (searchIter rng uc s pos).1 ∧
      (∀ j, 0 < j → j < (searchIter rng uc s pos).1.nodes.length →
        1 ≤ (getN (searchIter rng uc s pos).1 j).n_visits) ∧
      (getN (searchIter rng uc s pos).1 0).n_visits =
        (getN s 0).n_visits + 1 ∧
      (searchIter rng uc s pos).1.selection_threshold =
        s.selection_threshold ∧
      ((s.solution_found = true → s.best_solution.isSome = true) →
        ((searchIter rng uc s pos).1.solution_found = true →
          (searchIter rng uc s pos).1.best_solution.isSome = true)) := by
  obtain ⟨hseln, hselt, hselp⟩ :=
    selectLoopF_state rng uc (s.nodes.length + 1) pos s 0
  have hselb : (select rng uc pos s).1.nodes = s.nodes := hseln
  have hWF1 : WFState (select rng uc pos s).1 := WFState_congr hselb hWF
  have hV1 : ∀ j, 0 < j → j < (select rng uc pos s).1.nodes.length →
      1 ≤ (getN (select rng uc pos s).1 j).n_visits := by
    intro j h0 hj
    rw [getN_congr hselb]
    rw [hselb] at hj
    exact hV j h0 hj
  have hi : (select rng uc pos s).2.1 < s.nodes.length :=
    selectLoopF_node_lt rng uc (s.nodes.length + 1) pos s 0 hWF hWF.1
  have hi1 : (select rng uc pos s).2.1 < (select rng uc pos s).1.nodes.length := by
    rw [hselb]; exact hi
  have hroot1 : (getN (select rng uc pos s).1 0).n_visits =
      (getN s 0).n_visits := by rw [getN_congr hselb]
  have heq : searchIter rng uc s pos =
      simStep
        (if node_is_leaf (getN (select rng uc pos s).1
            (select rng uc pos s).2.1) then
          expand (select rng uc pos s).1 (select rng uc pos s).2.1
        else ((select rng uc pos s).1, (select rng uc pos s).2.1)).1
        (if node_is_leaf (getN (select rng uc pos s).1
            (select rng uc pos s).2.1) then
          expand (select rng uc pos s).1 (select rng uc pos s).2.1
        else ((select rng uc pos s).1, (select rng uc pos s).2.1)).2
        rng (select rng uc pos s).2.2 := rfl
  by_cases hlf : node_is_leaf (getN (select rng uc pos s).1
      (select rng uc pos s).2.1) = true
  · rw [heq, if_pos hlf]
    set s1 := (select rng uc pos s).1 with hs1
    set i := (select rng uc pos s).2.1 with hi'
    have hexWF : WFState (expand s1 i).1 := expand_WF hWF1 hi1
    have hexlen := expand_len s1 i
    have hexsnd := expand_snd s1 i
    have hsim : (simStep (expand s1 i).1 (expand s1 i).2 rng
        (select rng uc pos s).2.2).1 =
          backpropagate (expand s1 i).1 (expand s1 i).2
            (score ((playoutF rng
              (totalCells (getN (expand s1 i).1 (expand s1 i).2).board + 1)
              (select rng uc pos s).2.2
              (getN (expand s1 i).1 (expand s1 i).2).board 0).1 +
              (getN (expand s1 i).1 (expand s1 i).2).depth)) := rfl
    rw [hsim]
    set sc := score ((playoutF rng
      (totalCells (getN (expand s1 i).1 (expand s1 i).2).board + 1)
      (select rng uc pos s).2.2
      (getN (expand s1 i).1 (expand s1 i).2).board 0).1 +
      (getN (expand s1 i).1 (expand s1 i).2).depth) with hsc
    have hidx : (expand s1 i).2 < (expand s1 i).1.nodes.length := by
      rw [hexlen, hexsnd]
      omega
    have hblen := backpropagate_len (expand s1 i).1 (expand s1 i).2 sc
    refine ⟨backpropagate_WF _ _ _ hexWF, ?_, ?_, ?_, ?_⟩
    · intro j h0 hj
      rw [hblen, hexlen] at hj
      by_cases hjold : j < s1.nodes.length
      · refine le_trans ?_ (backpropF_visits_mono sc _ _ _ j)
        rw [expand_visits hi1 j hjold]
        rw [hs1] at hjold ⊢
        rw [getN_congr hselb]
        rw [hselb] at hjold
        exact hV j h0 hjold
      · have hj' : j = s1.nodes.length := by omega
        subst hj'
        have hstart := backpropagate_start (expand s1 i).1 (expand s1 i).2 sc hidx
        rw [show s1.nodes.length = (expand s1 i).2 from hexsnd.symm]
        omega
    · rw [backpropagate_root _ _ _ hexWF hidx]
      have h0l : 0 < s1.nodes.length := hWF1.1
      rw [expand_visits hi1 0 h0l, hroot1]
    · have hbf := backpropF_fields sc ((expand s1 i).1.nodes.length + 1)
        (expand s1 i).1 (some (expand s1 i).2)
      show (backpropagate (expand s1 i).1 (expand s1 i).2 sc).selection_threshold
        = s.selection_threshold
      rw [show backpropagate (expand s1 i).1 (expand s1 i).2 sc =
        backpropF sc ((expand s1 i).1.nodes.length + 1) (expand s1 i).1
          (some (expand s1 i).2) from rfl]
      rw [hbf.1, (expand_fields s1 i).1]
      exact hselt
    · intro hP
      have hbf := backpropF_fields sc ((expand s1 i).1.nodes.length + 1)
        (expand s1 i).1 (some (expand s1 i).2)
      rw [show backpropagate (expand s1 i).1 (expand s1 i).2 sc =
        backpropF sc ((expand s1 i).1.nodes.length + 1) (expand s1 i).1
          (some (expand s1 i).2) from rfl]
      rw [hbf.2.1, hbf.2.2, (expand_fields s1 i).2.1,
        (expand_fields s1 i).2.2]
      exact hselp hP
  · rw [heq, if_neg hlf]
    set s1 := (select rng uc pos s).1 with hs1
    set i := (select rng uc pos s).2.1 with hi'
    have hsim : (simStep ((s1, i) : MCTSState × Nat).1
        ((s1, i) : MCTSState × Nat).2 rng (select rng uc pos s).2.2).1 =
          backpropagate s1 i
            (score ((playoutF rng (totalCells (getN s1 i).board + 1)
              (select rng uc pos s).2.2 (getN s1 i).board 0).1 +
              (getN s1 i).depth)) := rfl
    rw [hsim]
    set sc := score ((playoutF rng (totalCells (getN s1 i).board + 1)
      (select rng uc pos s).2.2 (getN s1 i).board 0).1 +
      (getN s1 i).depth) with hsc
    have hblen := backpropagate_len s1 i sc
    refine ⟨backpropagate_WF _ _ _ hWF1, ?_, ?_, ?_, ?_⟩
    · intro j h0 hj
      rw [hblen] at hj
      refine le_trans ?_ (backpropF_visits_mono sc _ _ _ j)
      exact hV1 j h0 hj
    · rw [backpropagate_root _ _ _ hWF1 hi1, hroot1]
    · have hbf := backpropF_fields sc (s1.nodes.length + 1) s1 (some i)
      rw [show backpropagate s1 i sc =
        backpropF sc (s1.nodes.length + 1) s1 (some i) from rfl]
      rw [hbf.1]
      exact hselt
    · intro hP
      have hbf := backpropF_fields sc (s1.nodes.length + 1) s1 (some i)
      rw [show backpropagate s1 i sc =
        backpropF sc (s1.nodes.length + 1) s1 (some i) from rfl]
      rw [hbf.2.1, hbf.2.2]
      exact hselp hP

theorem runIters_spec (rng : Nat → Nat) (uc : MCTSState → Nat → Nat) :
    ∀ (n : Nat) (s : MCTSState) (pos : Nat), WFState s →
      (∀ j, 0 < j → j < s.nodes.length → 1 ≤ (getN s j).n_visits) →
      WFState (runIters rng uc n s pos).1 ∧
        (∀ j, 0 < j → j < (runIters rng uc n s pos).1.nodes.length →
          1 ≤ (getN (runIters rng uc n s pos).1 j).n_visits) ∧
        (getN (runIters rng uc n s pos).1 0).n_visits =
          (getN s 0).n_visits + n ∧
        (runIters rng uc n s pos).1.selection_threshold =
          s.selection_threshold := by
  intro n
  induction n with
  | zero =>
    intro s pos hWF hV
    exact ⟨hWF, hV, rfl, rfl⟩
  | succ n ih =>
    intro s pos hWF hV
    obtain ⟨hWF', hV', hroot', hth', -⟩ := searchIter_spec rng uc s pos hWF hV
    have hrw : runIters rng uc (n + 1) s pos =
        runIters rng uc n (searchIter rng uc s pos).1
          (searchIter rng uc s pos).2 := rfl
    rw [hrw]
    obtain ⟨ih1, ih2, ih3, ih4⟩ := ih (searchIter rng uc s pos).1
      (searchIter rng uc s pos).2 hWF' hV'
    refine ⟨ih1, ih2, ?_, by rw [ih4]; exact hth'⟩
    rw [ih3, hroot']
    omega

theorem initMCTS_WF (b : Board) (th : Nat) : WFState (initMCTS b th) := by
  refine ⟨by simp [initMCTS], ?_, ?_, ?_⟩
  · intro j hj
    have hj0 : j = 0 := by
      simp [initMCTS] at hj
      omega
    subst hj0
    simp [initMCTS, getN, mkNode]
  · intro j p hj hp
    have hj0 : j = 0 := by
      simp [initMCTS] at hj
      omega
    subst hj0
    simp [initMCTS, getN, mkNode] at hp
  · intro j hj c hc
    have hj0 : j = 0 := by
      simp [initMCTS] at hj
      omega
    subst hj0
    simp [initMCTS, getN, mkNode] at hc

/-! ## Claim theorems (MCTS layer) -/

/-- C9: after any number `n` of completed search iterations from a fresh
engine, the root node's visit count equals `n`: every iteration's
backpropagation walks the parent chain from the simulated node up to and
including the root, incrementing each visit count once. -/
theorem root_visits_eq_iters (b : Board) (th n pos : Nat) (rng : Nat → Nat)
    (uc : MCTSState → Nat → Nat) (hrect : rect b) :
    (getN (runIters rng uc n (initMCTS b th) pos).1 0).n_visits = n := by
  obtain ⟨-, -, hroot, -⟩ := runIters_spec rng uc n (initMCTS b th) pos
    (initMCTS_WF b th)
    (by
      intro j h0 hj
      simp [initMCTS] at hj
      omega)
  rw [hroot]
  simp [initMCTS, getN, mkNode]

/-- C9, witnessed: three iterations on the 1×1 board give the root three
visits. -/
theorem root_visits_eq_iters_witness :
    rect [['B']] ∧
      (getN (runIters (fun _ => 0) (fun _ _ => 0) 3
        (initMCTS [['B']] 1000) 0).1 0).n_visits = 3 :=
  ⟨by decide, root_visits_eq_iters [['B']] 1000 3 0 _ _ (by decide)⟩

/-- C6: in every reachable engine state (with a selection threshold ≥ 1,
as the configuration requires), every (parent, child) pair on which
`MCTS.uct` is evaluated — the children of a non-leaf node whose visit
count has reached the threshold — has `child.n_visits ≥ 1` and
`parent.n_visits ≥ 1`, so the division by `visits(child)` and the
logarithm of `visits(parent)` in the UCT formula are well-defined. -/
theorem uct_pairs_visited (b : Board) (th n pos : Nat) (rng : Nat → Nat)
    (uc : MCTSState → Nat → Nat) (hrect : rect b) (hth : 1 ≤ th) :
    ∀ i, i < (runIters rng uc n (initMCTS b th) pos).1.nodes.length →
      ∀ pc ∈ uctPairs (runIters rng uc n (initMCTS b th) pos).1 i,
        1 ≤ (getN (runIters rng uc n (initMCTS b th) pos).1 pc.1).n_visits ∧
          1 ≤ (getN (runIters rng uc n (initMCTS b th) pos).1 pc.2).n_visits := by
  obtain ⟨hWF, hV, -, hth'⟩ := runIters_spec rng uc n (initMCTS b th) pos
    (initMCTS_WF b th)
    (by
      intro j h0 hj
      simp [initMCTS] at hj
      omega)
  intro i hi pc hpc
  unfold uctPairs at hpc
  by_cases h1 : node_is_leaf (getN (runIters rng uc n (initMCTS b th) pos).1 i)
      = true
  · rw [if_pos h1] at hpc
    exact absurd hpc (List.not_mem_nil _)
  · rw [if_neg h1] at hpc
    by_cases h2 : (getN (runIters rng uc n (initMCTS b th) pos).1 i).n_visits <
        (runIters rng uc n (initMCTS b th) pos).1.selection_threshold
    · rw [if_pos h2] at hpc
      exact absurd hpc (List.not_mem_nil _)
    · rw [if_neg h2] at hpc
      rw [List.mem_map] at hpc
      obtain ⟨c, hc, rfl⟩ := hpc
      push_neg at h2
      rw [hth'] at h2
      have hthinit : (initMCTS b th).selection_threshold = th := rfl
      rw [hthinit] at h2
      constructor
      · show 1 ≤ (getN (runIters rng uc n (initMCTS b th) pos).1 i).n_visits
        omega
      · obtain ⟨hcb, hcp⟩ := hWF.2.2.2 i hi c hc
        have hc0 : c ≠ 0 := by
          intro h0
          subst h0
          have hnone := (hWF.2.1 0 hWF.1).mpr rfl
          rw [hcp] at hnone
          exact absurd hnone (Option.some_ne_none i)
        exact hV c (by omega) hcb

/-- C6, witnessed: with threshold 1 after two iterations on the 1×1
board, `uct` is evaluated on the pair (root, child 1), and both have at
least one visit. -/
theorem uct_pairs_visited_witness :
    rect [['B']] ∧ 1 ≤ 1 ∧
      (0 < (runIters (fun _ => 0) (fun _ _ => 0) 2
          (initMCTS [['B']] 1) 0).1.nodes.length ∧
        (0, 1) ∈ uctPairs (runIters (fun _ => 0) (fun _ _ => 0) 2
          (initMCTS [['B']] 1) 0).1 0) ∧
      (1 ≤ (getN (runIters (fun _ => 0) (fun _ _ => 0) 2
          (initMCTS [['B']] 1) 0).1 0).n_visits ∧
        1 ≤ (getN (runIters (fun _ => 0) (fun _ _ => 0) 2
          (initMCTS [['B']] 1) 0).1 1).n_visits) :=
  ⟨by decide, le_rfl, ⟨by decide, by decide⟩,
    uct_pairs_visited [['B']] 1 2 0 _ _ (by decide) le_rfl 0 (by decide)
      (0, 1) (by decide)⟩

/-- C1 counterexample: with a clock that reports the budget as already
elapsed at every poll, `MCTS.search` on the 1×1 board still runs two
full iterations (the loop condition is
`time() - t0 < time_limit or not self.solution_found`) and returns the
one-move solution, not the empty sequence the claim prescribes when no
terminal node was reached within the budget. -/
theorem search_ignores_deadline :
    search [['B']] 1000 (fun _ => false) (fun _ => 0) (fun _ _ => 0) 5 =
      (some [(0, 0)], 2) ∧
      (some [((0 : Int), (0 : Int))] : Option (List Coord)) ≠ some [] := by
  constructor
  · decide
  · simp

theorem searchLoop_exit (clock : Nat → Bool) (rng : Nat → Nat)
    (uc : MCTSState → Nat → Nat) :
    ∀ (fuel : Nat) (s : MCTSState) (pos k : Nat), WFState s →
      (∀ j, 0 < j → j < s.nodes.length → 1 ≤ (getN s j).n_visits) →
      (s.solution_found = true → s.best_solution.isSome = true) →
      (searchLoopF clock rng uc fuel s pos k).2.2.2 = false →
      (searchLoopF clock rng uc fuel s pos k).1.solution_found = true ∧
        clock (searchLoopF clock rng uc fuel s pos k).2.2.1 = false ∧
        ((extractMoves (searchLoopF clock rng uc fuel s pos k).1).isSome
          = true) := by
  intro fuel
  induction fuel with
  | zero =>
    intro s pos k _ _ _ hex
    rw [searchLoopF] at hex
    simp at hex
  | succ fuel ih =>
    intro s pos k hWF hV hP hex
    by_cases hc : (clock k || !s.solution_found) = true
    · rw [searchLoopF, if_pos hc] at hex ⊢
      obtain ⟨hWF', hV', -, -, hP'⟩ := searchIter_spec rng uc s pos hWF hV
      exact ih (searchIter rng uc s pos).1 (searchIter rng uc s pos).2
        (k + 1) hWF' hV' (hP' hP) hex
    · rw [searchLoopF, if_neg hc] at hex ⊢
      have hor := hc
      rw [Bool.or_eq_true] at hor
      push_neg at hor
      have hck : clock k = false := by
        rcases Bool.eq_false_or_eq_true (clock k) with h | h
        · exact absurd h hor.1
        · exact h
      have hsf : s.solution_found = true := by
        rcases Bool.eq_false_or_eq_true s.solution_found with h | h
        · exact h
        · exact absurd (by rw [h]; rfl) hor.2
      refine ⟨hsf, hck, ?_⟩
      obtain ⟨bi, hbi⟩ := Option.isSome_iff_exists.mp (hP hsf)
      unfold extractMoves
      rw [hbi]
      rfl

/-- C1 (amended): `MCTS.search` polls the wall-clock deadline between
iterations, but its loop stops only at a poll where the budget has
elapsed AND some terminal node has already been reached
(`while time() - t0 < time_limit or not self.solution_found`); on exit
a best solution always exists and its move path is returned, so the
search never returns early with the empty sequence as a
budget-exhausted default. -/
theorem search_stops_only_with_solution (b : Board) (th : Nat)
    (clock : Nat → Bool) (rng : Nat → Nat) (uc : MCTSState → Nat → Nat)
    (fuel : Nat)
    (hex : (searchLoopF clock rng uc fuel (initMCTS b th) 0 0).2.2.2
      = false) :
    (searchLoopF clock rng uc fuel (initMCTS b th) 0 0).1.solution_found
        = true ∧
      clock (searchLoopF clock rng uc fuel (initMCTS b th) 0 0).2.2.1
        = false ∧
      (search b th clock rng uc fuel).1.isSome = true := by
  have := searchLoop_exit clock rng uc fuel (initMCTS b th) 0 0
    (initMCTS_WF b th)
    (by
      intro j h0 hj
      simp [initMCTS] at hj
      omega)
    (by
      intro h
      exact absurd h (by simp [initMCTS]))
    hex
  exact this

/-- C1 amended, witnessed: on the 1×1 board with an always-expired
clock, the loop exits through its own condition within five iterations,
a solution has been found, and the returned move list exists. -/
theorem search_stops_only_with_solution_witness :
    (searchLoopF (fun _ => false) (fun _ => 0) (fun _ _ => 0) 5
        (initMCTS [['B']] 1000) 0 0).2.2.2 = false ∧
      ((searchLoopF (fun _ => false) (fun _ => 0) (fun _ _ => 0) 5
          (initMCTS [['B']] 1000) 0 0).1.solution_found = true ∧
        (fun _ => false) ((searchLoopF (fun _ => false) (fun _ => 0)
          (fun _ _ => 0) 5 (initMCTS [['B']] 1000) 0 0).2.2.1) = false ∧
        (search [['B']] 1000 (fun _ => false) (fun _ => 0) (fun _ _ => 0)
          5).1.isSome = true) :=
  ⟨by decide,
    search_stops_only_with_solution [['B']] 1000 (fun _ => false)
      (fun _ => 0) (fun _ _ => 0) 5 (by decide)⟩

end Former
